import Mathlib

/-!
# ARM64 instruction relocator (`gum/arch-arm64/gumarm64relocator.c`)

A shallow embedding of the relocator and machine-checked statements about it.

Conventions of the embedding.

* Memory is a read-only map from addresses to bytes.  Pointers and `GumAddress`
  values are 64-bit, `guint` values are 32-bit; both are natural numbers, and
  every operation that can wrap in C reduces modulo `2^64` resp. `2^32`.
* A pointer to a record of the window (`&self->input_insns[i]`) is the slot
  index `i`; the null pointer is `none`.
* A failed `g_assert*` ends the run: the outcome is `Outcome.aborted`.
* `can_relocate` can also die of a memory fault, when its stack buffer does not
  fit or when the pull loop loads from an address that is not readable: that is
  `Faulting.faulted`, kept apart from the assertion failures.
* `while` loops take a fuel argument (one unit per iteration); running out of
  it is the separate outcome `Outcome.out_of_fuel`.
* The code writer (`GumArm64Writer`) is an external collaborator.  It is kept
  as the list of requests it has received.
-/

namespace Gum

/-! ## Data model -/

/-- Result of running a piece of the C code: a normal return, a fatal assertion,
or an exhausted iteration budget of the embedding. -/
inductive Outcome (α : Type) where
  | done (a : α)
  | aborted
  | out_of_fuel
  deriving DecidableEq, Repr

/-- Read-only view of the process memory: address to byte. -/
abbrev Memory := Nat → Nat

/-- One byte of memory; addresses are 64-bit, bytes are 8-bit. -/
def mem_byte (mem : Memory) (a : Nat) : Nat := mem (a % 2 ^ 64) % 256

/-- The `len` bytes starting at address `a`, in address order. -/
def mem_bytes (mem : Memory) (a len : Nat) : List Nat :=
  (List.range len).map (fun i => mem_byte mem (a + i))

/-- `GUINT32_FROM_LE (*((guint32 *) p))`: the little-endian value of the four
bytes at `p`. -/
def read_guint32_le (mem : Memory) (p : Nat) : Nat :=
  mem_byte mem p + 256 * mem_byte mem (p + 1) + 65536 * mem_byte mem (p + 2)
    + 16777216 * mem_byte mem (p + 3)

/-- `GUM_MAX_INPUT_INSN_COUNT`. -/
def GUM_MAX_INPUT_INSN_COUNT : Nat := 100

/-- Modelled from the spec: the classification tag of an instruction record
(the enumeration is declared in `gumarm64relocator.h`, which is not among the
sources); the three values are the ones the relocator uses. -/
inductive GumArm64Mnemonic where
  | GUM_ARM64_UNKNOWN
  | GUM_ARM64_ADR
  | GUM_ARM64_ADRP
  deriving DecidableEq, Repr

open GumArm64Mnemonic

/-- Modelled from the spec: the instruction record (`GumArm64Instruction`,
declared in `gumarm64relocator.h`); the fields are those `read_one` fills in. -/
structure GumArm64Instruction where
  mnemonic : GumArm64Mnemonic
  address : Nat
  length : Nat
  pc : Nat
  deriving DecidableEq, Repr

/-- Modelled from the spec: one request received by the code-emission backend,
either a raw byte sequence to append or an instruction sequence to synthesize
that loads an absolute 64-bit address into a register
(`gum_arm64_writer_put_bytes`, `gum_arm64_writer_put_ldr_reg_address`). -/
inductive Emission where
  | put_bytes (bytes : List Nat)
  | put_ldr_reg_address (reg : Nat) (address : Nat)
  deriving DecidableEq, Repr

/-- Modelled from the spec: the code-emission backend (`GumArm64Writer`, not
among the sources): the destination it was bound to and the requests it has
received, oldest first. -/
structure GumArm64Writer where
  base : Nat
  emitted : List Emission
  deriving DecidableEq, Repr

/-- Modelled from the spec: `gum_arm64_writer_init`, a writer bound to `code`
that has received nothing yet. -/
def gum_arm64_writer_init (code : Nat) : GumArm64Writer :=
  { base := code, emitted := [] }

/-- Modelled from the spec: `gum_arm64_writer_put_bytes`, append `n` bytes read
from `data`. -/
def gum_arm64_writer_put_bytes (mem : Memory) (self : GumArm64Writer)
    (data n : Nat) : GumArm64Writer :=
  { self with emitted := self.emitted ++ [Emission.put_bytes (mem_bytes mem data n)] }

/-- Modelled from the spec: `gum_arm64_writer_put_ldr_reg_address`, append a
sequence loading `address` into `reg`. -/
def gum_arm64_writer_put_ldr_reg_address (self : GumArm64Writer)
    (reg address : Nat) : GumArm64Writer :=
  { self with emitted := self.emitted ++ [Emission.put_ldr_reg_address reg address] }

/-- Modelled from the spec: the relocator state (`GumArm64Relocator`, declared
in `gumarm64relocator.h`); the fields are those the functions below use.  The
writer the C struct points to is held by value in `output`. -/
structure GumArm64Relocator where
  input_start : Nat
  input_cur : Nat
  input_pc : Nat
  input_insns : Nat → GumArm64Instruction
  output : GumArm64Writer
  inpos : Nat
  outpos : Nat
  eob : Bool
  eoi : Bool

/-- The code generation context `GumCodeGenCtx` of `write_one`; `insn` is the
record the C pointer refers to (the window is not modified while the context
lives). -/
structure GumCodeGenCtx where
  insn : GumArm64Instruction
  raw_insn : Nat
  start : Nat
  end_ : Nat
  len : Nat
  output : GumArm64Writer

/-! ## Operations -/

/-- `gum_arm64_relocator_reset`. -/
def gum_arm64_relocator_reset (relocator : GumArm64Relocator) (input_code : Nat)
    (output : GumArm64Writer) : GumArm64Relocator :=
  { relocator with
    input_start := input_code
    input_cur := input_code
    input_pc := input_code
    output := output
    inpos := 0
    outpos := 0
    eob := false
    eoi := false }

/-- `gum_arm64_relocator_init`: `storage` is the content of the freshly
allocated (uninitialised) window, `relocator` the uninitialised struct. -/
def gum_arm64_relocator_init (relocator : GumArm64Relocator)
    (storage : Nat → GumArm64Instruction) (input_code : Nat)
    (output : GumArm64Writer) : GumArm64Relocator :=
  gum_arm64_relocator_reset { relocator with input_insns := storage } input_code output

/-- `gum_arm64_relocator_inpos`. -/
def gum_arm64_relocator_inpos (self : GumArm64Relocator) : Nat :=
  self.inpos % GUM_MAX_INPUT_INSN_COUNT

/-- `gum_arm64_relocator_outpos`. -/
def gum_arm64_relocator_outpos (self : GumArm64Relocator) : Nat :=
  self.outpos % GUM_MAX_INPUT_INSN_COUNT

/-- `gum_arm64_relocator_increment_inpos`. -/
def gum_arm64_relocator_increment_inpos (self : GumArm64Relocator) :
    Outcome GumArm64Relocator :=
  let self1 := { self with inpos := (self.inpos + 1) % 2 ^ 32 }
  if self1.inpos > self1.outpos then .done self1 else .aborted

/-- `gum_arm64_relocator_increment_outpos`. -/
def gum_arm64_relocator_increment_outpos (self : GumArm64Relocator) :
    Outcome GumArm64Relocator :=
  let self1 := { self with outpos := (self.outpos + 1) % 2 ^ 32 }
  if self1.outpos ≤ self1.inpos then .done self1 else .aborted

/-- `gum_arm64_relocator_read_one`.  `instruction` is the out-parameter: `none`
for a null pointer, `some v` for a caller variable currently holding `v`; the
third component of the result is that variable after the call. -/
def gum_arm64_relocator_read_one (mem : Memory) (self : GumArm64Relocator)
    (instruction : Option (Option Nat)) :
    Outcome (GumArm64Relocator × Nat × Option (Option Nat)) :=
  if self.eoi then .done (self, 0, instruction)
  else
    let raw_insn := read_guint32_le mem self.input_cur
    let slot := gum_arm64_relocator_inpos self
    let insn0 : GumArm64Instruction :=
      { mnemonic := GUM_ARM64_UNKNOWN, address := self.input_cur, length := 4,
        pc := self.input_pc }
    let adr_bits := raw_insn &&& 0x9f000000
    let insn : GumArm64Instruction :=
      if adr_bits = 0x10000000 then { insn0 with mnemonic := GUM_ARM64_ADR }
      else if adr_bits = 0x90000000 then { insn0 with mnemonic := GUM_ARM64_ADRP }
      else insn0
    let self1 := { self with
      input_insns := fun i => if i = slot then insn else self.input_insns i }
    match gum_arm64_relocator_increment_inpos self1 with
    | .aborted => .aborted
    | .out_of_fuel => .out_of_fuel
    | .done self2 =>
      let instruction1 := match instruction with
        | none => none
        | some _ => some (some slot)
      let self3 := { self2 with
        input_cur := (self2.input_cur + insn.length) % 2 ^ 64
        input_pc := (self2.input_pc + insn.length) % 2 ^ 64 }
      .done (self3, (self3.input_cur + 2 ^ 64 - self3.input_start % 2 ^ 64) % 2 ^ 32,
        instruction1)

/-- `gum_arm64_relocator_peek_next_write_insn`. -/
def gum_arm64_relocator_peek_next_write_insn (self : GumArm64Relocator) : Option Nat :=
  if self.outpos = self.inpos then none
  else some (gum_arm64_relocator_outpos self)

/-- `gum_arm64_relocator_peek_next_write_source`. -/
def gum_arm64_relocator_peek_next_write_source (self : GumArm64Relocator) :
    Outcome (Option Nat) :=
  match gum_arm64_relocator_peek_next_write_insn self with
  | none => .done none
  | some _ => .aborted

/-- `gum_arm64_relocator_skip_one`. -/
def gum_arm64_relocator_skip_one (self : GumArm64Relocator) : Outcome GumArm64Relocator :=
  match gum_arm64_relocator_peek_next_write_insn self with
  | none => .aborted
  | some _ => gum_arm64_relocator_increment_outpos self

/-- `gum_arm64_relocator_rewrite_adr`: the returned flag and the writer after
the call. -/
def gum_arm64_relocator_rewrite_adr (_self : GumArm64Relocator) (ctx : GumCodeGenCtx) :
    Outcome (Bool × GumArm64Writer) :=
  let reg := ctx.raw_insn &&& 0x1f
  let imm_hi := (ctx.raw_insn >>> 5) &&& 0x7ffff
  let imm_lo := (ctx.raw_insn >>> 29) &&& 3
  let distance : Outcome Nat :=
    if ctx.insn.mnemonic = GUM_ARM64_ADR then
      let negative_mask := 0xffffffffffe00000
      if imm_hi &&& 0x40000 ≠ 0 then .done ((negative_mask ||| (imm_hi <<< 2)) ||| imm_lo)
      else .done ((imm_hi <<< 2) ||| imm_lo)
    else if ctx.insn.mnemonic = GUM_ARM64_ADRP then
      let negative_mask := 0xfffffffe00000000
      if imm_hi &&& 0x40000 ≠ 0 then
        .done ((negative_mask ||| (imm_hi <<< 14)) ||| (imm_lo <<< 12))
      else .done ((imm_hi <<< 14) ||| (imm_lo <<< 12))
    else .aborted
  match distance with
  | .aborted => .aborted
  | .out_of_fuel => .out_of_fuel
  | .done distance_u =>
    let absolute_target := (ctx.insn.pc + distance_u) % 2 ^ 64
    .done (true, gum_arm64_writer_put_ldr_reg_address ctx.output reg absolute_target)

/-- `gum_arm64_relocator_write_one`. -/
def gum_arm64_relocator_write_one (mem : Memory) (self : GumArm64Relocator) :
    Outcome (GumArm64Relocator × Bool) :=
  match gum_arm64_relocator_peek_next_write_insn self with
  | none => .done (self, false)
  | some _cur =>
    match gum_arm64_relocator_peek_next_write_insn self with
    | none => .done (self, false)
    | some p =>
      match gum_arm64_relocator_increment_outpos self with
      | .aborted => .aborted
      | .out_of_fuel => .out_of_fuel
      | .done self1 =>
        let insn := self1.input_insns p
        let ctx : GumCodeGenCtx :=
          { insn := insn
            len := insn.length
            raw_insn := read_guint32_le mem insn.address
            start := insn.address
            end_ := (insn.address + insn.length) % 2 ^ 64
            output := self1.output }
        let rewritten : Outcome (Bool × GumArm64Writer) :=
          match ctx.insn.mnemonic with
          | GUM_ARM64_ADR => gum_arm64_relocator_rewrite_adr self1 ctx
          | GUM_ARM64_ADRP => gum_arm64_relocator_rewrite_adr self1 ctx
          | GUM_ARM64_UNKNOWN => .done (false, ctx.output)
        match rewritten with
        | .aborted => .aborted
        | .out_of_fuel => .out_of_fuel
        | .done (true, w) => .done ({ self1 with output := w }, true)
        | .done (false, w) =>
          .done ({ self1 with output := gum_arm64_writer_put_bytes mem w ctx.start ctx.len },
            true)

/-- The `while` loop of `gum_arm64_relocator_write_all`: the state and `count`
when `write_one` first returns `FALSE`. -/
def gum_arm64_relocator_write_all_loop (mem : Memory) :
    Nat → GumArm64Relocator → Nat → Outcome (GumArm64Relocator × Nat)
  | 0, _, _ => .out_of_fuel
  | fuel + 1, self, count =>
    match gum_arm64_relocator_write_one mem self with
    | .aborted => .aborted
    | .out_of_fuel => .out_of_fuel
    | .done (self1, true) =>
      gum_arm64_relocator_write_all_loop mem fuel self1 ((count + 1) % 2 ^ 32)
    | .done (self1, false) => .done (self1, count)

/-- `gum_arm64_relocator_write_all`. -/
def gum_arm64_relocator_write_all (fuel : Nat) (mem : Memory) (self : GumArm64Relocator) :
    Outcome GumArm64Relocator :=
  match gum_arm64_relocator_write_all_loop mem fuel self 0 with
  | .aborted => .aborted
  | .out_of_fuel => .out_of_fuel
  | .done (self1, count) => if count > 0 then .done self1 else .aborted

/-- Result of code that can also be killed by a memory fault (SIGSEGV) before
it returns or aborts. -/
inductive Faulting (α : Type) where
  | faulted
  | ran (outcome : Outcome α)
  deriving DecidableEq, Repr

/-- Whether the four bytes of the word at `p` are all readable, `readable`
telling which addresses of the process are mapped for reading. -/
def word_readable (readable : Nat → Bool) (p : Nat) : Bool :=
  readable (p % 2 ^ 64) && readable ((p + 1) % 2 ^ 64) && readable ((p + 2) % 2 ^ 64)
    && readable ((p + 3) % 2 ^ 64)

/-- GLib's `g_alloca (n)`: a block of `n` bytes taken from the stack, which
lies between `stack_low` (lowest usable address) and the stack pointer `sp`;
`none` when the block does not fit, in which case the process faults. -/
def g_alloca (sp stack_low n : Nat) : Option Nat :=
  if stack_low + n ≤ sp then some (sp - n) else none

/-- The call `gum_arm64_relocator_read_one (&rl, NULL)` in a process where only
the `readable` addresses are mapped: unless the end-of-instructions flag makes
`read_one` return at once, its load `*((guint32 *) self->input_cur)` faults
when a byte of the word is not readable. -/
def read_one_mapped (mem : Memory) (readable : Nat → Bool) (self : GumArm64Relocator)
    (instruction : Option (Option Nat)) :
    Faulting (GumArm64Relocator × Nat × Option (Option Nat)) :=
  if self.eoi = false ∧ word_readable readable self.input_cur = false then .faulted
  else .ran (gum_arm64_relocator_read_one mem self instruction)

/-- The `do ... while` loop of `gum_arm64_relocator_can_relocate`: `none` when
the function returns `FALSE` from inside the loop, otherwise the relocator and
`reloc_bytes` at loop exit. -/
def gum_arm64_relocator_can_relocate_loop (mem : Memory) (readable : Nat → Bool)
    (min_bytes : Nat) :
    Nat → GumArm64Relocator → Faulting (Option (GumArm64Relocator × Nat))
  | 0, _ => .ran .out_of_fuel
  | fuel + 1, rl =>
    match read_one_mapped mem readable rl none with
    | .faulted => .faulted
    | .ran .aborted => .ran .aborted
    | .ran .out_of_fuel => .ran .out_of_fuel
    | .ran (.done (rl1, reloc_bytes, _)) =>
      if reloc_bytes = 0 then .ran (.done none)
      else if reloc_bytes < min_bytes then
        gum_arm64_relocator_can_relocate_loop mem readable min_bytes fuel rl1
      else .ran (.done (some (rl1, reloc_bytes)))

/-- `gum_arm64_relocator_can_relocate`.  `rl` and `storage` are the
uninitialised relocator struct and window; `buf = g_alloca (3 * min_bytes)`
(the product in `guint` arithmetic) is taken from the stack between
`stack_low` and `sp` and serves as the writer's destination. -/
def gum_arm64_relocator_can_relocate (fuel : Nat) (mem : Memory) (readable : Nat → Bool)
    (sp stack_low : Nat) (rl : GumArm64Relocator) (storage : Nat → GumArm64Instruction)
    (address min_bytes : Nat) : Faulting Bool :=
  match g_alloca sp stack_low ((3 * min_bytes) % 2 ^ 32) with
  | none => .faulted
  | some buf =>
    let cw := gum_arm64_writer_init buf
    let rl0 := gum_arm64_relocator_init rl storage address cw
    match gum_arm64_relocator_can_relocate_loop mem readable min_bytes fuel rl0 with
    | .faulted => .faulted
    | .ran .aborted => .ran .aborted
    | .ran .out_of_fuel => .ran .out_of_fuel
    | .ran (.done none) => .ran (.done false)
    | .ran (.done (some _)) => .ran (.done true)

/-- The `do ... while` loop of `gum_arm64_relocator_relocate`: the relocator
and `reloc_bytes` at loop exit. -/
def gum_arm64_relocator_relocate_loop (mem : Memory) (min_bytes : Nat) :
    Nat → GumArm64Relocator → Outcome (GumArm64Relocator × Nat)
  | 0, _ => .out_of_fuel
  | fuel + 1, rl =>
    match gum_arm64_relocator_read_one mem rl none with
    | .aborted => .aborted
    | .out_of_fuel => .out_of_fuel
    | .done (rl1, reloc_bytes, _) =>
      if reloc_bytes ≠ 0 then
        if reloc_bytes < min_bytes then
          gum_arm64_relocator_relocate_loop mem min_bytes fuel rl1
        else .done (rl1, reloc_bytes)
      else .aborted

/-- `gum_arm64_relocator_relocate`: the returned byte count and the writer
bound to `to` as the call leaves it. -/
def gum_arm64_relocator_relocate (fuel : Nat) (mem : Memory)
    (rl : GumArm64Relocator) (storage : Nat → GumArm64Instruction)
    (from_ min_bytes to_ : Nat) : Outcome (Nat × GumArm64Writer) :=
  let cw := gum_arm64_writer_init to_
  let rl0 := gum_arm64_relocator_init rl storage from_ cw
  match gum_arm64_relocator_relocate_loop mem min_bytes fuel rl0 with
  | .aborted => .aborted
  | .out_of_fuel => .out_of_fuel
  | .done (rl1, reloc_bytes) =>
    match gum_arm64_relocator_write_all fuel mem rl1 with
    | .aborted => .aborted
    | .out_of_fuel => .out_of_fuel
    | .done rl2 => .done (reloc_bytes, rl2.output)

/-! ## Specification-side definitions -/

/-- Two's complement reading of the low `bits` bits of `v`: the signed integer
that sign extension from `bits` bits denotes. -/
def sign_extend (bits v : Nat) : Int :=
  if v % 2 ^ bits < 2 ^ (bits - 1) then ((v % 2 ^ bits : Nat) : Int)
  else ((v % 2 ^ bits : Nat) : Int) - 2 ^ bits

/-- The 21-bit displacement field `immhi:immlo` of an ADR/ADRP word, reassembled
as `(high << 2) | low`. -/
def adr_imm21 (raw : Nat) : Nat :=
  (((raw >>> 5) &&& 0x7ffff) <<< 2) ||| ((raw >>> 29) &&& 3)

/-- A64 definition of ADR executing at `P`: `P + SignExtend(immhi:immlo)`, as a
64-bit value. -/
def a64_adr_value (raw P : Nat) : Nat :=
  (((P : Int) + sign_extend 21 (adr_imm21 raw)) % 2 ^ 64).toNat

/-- A64 definition of ADRP executing at `P`: `P` with its low 12 bits cleared
plus `SignExtend(immhi:immlo:Zeros(12))`, as a 64-bit value. -/
def a64_adrp_value (raw P : Nat) : Nat :=
  ((((P / 4096 * 4096 : Nat) : Int) + sign_extend 33 (adr_imm21 raw <<< 12)) % 2 ^ 64).toNat

/-- Concatenation of the byte sequences of the `put_bytes` requests, in order. -/
def verbatim_bytes : List Emission → List Nat
  | [] => []
  | Emission.put_bytes bytes :: rest => bytes ++ verbatim_bytes rest
  | Emission.put_ldr_reg_address _ _ :: rest => verbatim_bytes rest

/-- States a caller can bring a relocator into: `init` or `reset`, followed by
any calls of `read_one`, `skip_one`, `write_one` and `write_all` that return
(`peek_next_write_insn` is a pure query and changes no state). -/
inductive Reachable : GumArm64Relocator → Prop where
  | init (relocator : GumArm64Relocator) (storage : Nat → GumArm64Instruction)
      (input_code : Nat) (output : GumArm64Writer) :
      Reachable (gum_arm64_relocator_init relocator storage input_code output)
  | reset (relocator : GumArm64Relocator) (input_code : Nat) (output : GumArm64Writer) :
      Reachable (gum_arm64_relocator_reset relocator input_code output)
  | read_one (mem : Memory) (self self1 : GumArm64Relocator)
      (instruction out : Option (Option Nat)) (n : Nat) :
      Reachable self →
      gum_arm64_relocator_read_one mem self instruction = .done (self1, n, out) →
      Reachable self1
  | skip_one (self self1 : GumArm64Relocator) :
      Reachable self → gum_arm64_relocator_skip_one self = .done self1 → Reachable self1
  | write_one (mem : Memory) (self self1 : GumArm64Relocator) (b : Bool) :
      Reachable self → gum_arm64_relocator_write_one mem self = .done (self1, b) →
      Reachable self1
  | write_all (fuel : Nat) (mem : Memory) (self self1 : GumArm64Relocator) :
      Reachable self → gum_arm64_relocator_write_all fuel mem self = .done self1 →
      Reachable self1

/-! ## Step functions used in the proofs -/

/-- The unsigned 64-bit `distance.u` that `rewrite_adr` computes for the ADR form. -/
def adr_distance (raw : Nat) : Nat :=
  let imm_hi := (raw >>> 5) &&& 0x7ffff
  let imm_lo := (raw >>> 29) &&& 3
  if imm_hi &&& 0x40000 ≠ 0 then (0xffffffffffe00000 ||| (imm_hi <<< 2)) ||| imm_lo
  else (imm_hi <<< 2) ||| imm_lo

/-- The unsigned 64-bit `distance.u` that `rewrite_adr` computes for the ADRP form. -/
def adrp_distance (raw : Nat) : Nat :=
  let imm_hi := (raw >>> 5) &&& 0x7ffff
  let imm_lo := (raw >>> 29) &&& 3
  if imm_hi &&& 0x40000 ≠ 0 then (0xfffffffe00000000 ||| (imm_hi <<< 14)) ||| (imm_lo <<< 12)
  else (imm_hi <<< 14) ||| (imm_lo <<< 12)

/-- The request `write_one` sends to the backend for the record `insn`. -/
def emission_for (mem : Memory) (insn : GumArm64Instruction) : Emission :=
  let raw := read_guint32_le mem insn.address
  match insn.mnemonic with
  | GUM_ARM64_ADR =>
    .put_ldr_reg_address (raw &&& 0x1f) ((insn.pc + adr_distance raw) % 2 ^ 64)
  | GUM_ARM64_ADRP =>
    .put_ldr_reg_address (raw &&& 0x1f) ((insn.pc + adrp_distance raw) % 2 ^ 64)
  | GUM_ARM64_UNKNOWN => .put_bytes (mem_bytes mem insn.address insn.length)

/-- The state `write_one` leaves when a record is pending. -/
def write_step (mem : Memory) (self : GumArm64Relocator) : GumArm64Relocator :=
  { self with
    outpos := (self.outpos + 1) % 2 ^ 32
    output := { self.output with
      emitted := self.output.emitted ++
        [emission_for mem (self.input_insns (gum_arm64_relocator_outpos self))] } }

/-- The record `read_one` builds for the word at `cur` when the running program
counter is `pc`. -/
def decode_insn (mem : Memory) (cur pc : Nat) : GumArm64Instruction :=
  { mnemonic :=
      if read_guint32_le mem cur &&& 0x9f000000 = 0x10000000 then GUM_ARM64_ADR
      else if read_guint32_le mem cur &&& 0x9f000000 = 0x90000000 then GUM_ARM64_ADRP
      else GUM_ARM64_UNKNOWN
    address := cur
    length := 4
    pc := pc }

/-- The state `read_one` leaves when it decodes an instruction. -/
def read_step (mem : Memory) (self : GumArm64Relocator) : GumArm64Relocator :=
  { self with
    input_insns := fun i =>
      if i = gum_arm64_relocator_inpos self then decode_insn mem self.input_cur self.input_pc
      else self.input_insns i
    inpos := (self.inpos + 1) % 2 ^ 32
    input_cur := (self.input_cur + 4) % 2 ^ 64
    input_pc := (self.input_pc + 4) % 2 ^ 64 }

/-- The value `read_one` returns in state `self`: `input_cur - input_start` as a
`guint`. -/
def read_count (self : GumArm64Relocator) : Nat :=
  (self.input_cur + 2 ^ 64 - self.input_start % 2 ^ 64) % 2 ^ 32

/-! ## Definitions used in the proofs and concrete inputs -/

/-- Memory holding the little-endian word `w` at address `a` and zero bytes elsewhere. -/
def word_at (a w : Nat) : Memory := fun x =>
  if x = a then w % 256
  else if x = a + 1 then w / 256 % 256
  else if x = a + 2 then w / 65536 % 256
  else if x = a + 3 then w / 16777216 % 256
  else 0

/-- A relocator with one pending record of the given tag, read at `0x1004`. -/
def one_pending (tag : GumArm64Mnemonic) : GumArm64Relocator :=
  { input_start := 0x1004, input_cur := 0x1008, input_pc := 0x1008
    input_insns := fun _ => { mnemonic := tag, address := 0x1004, length := 4, pc := 0x1004 }
    output := gum_arm64_writer_init 0x2000
    inpos := 1, outpos := 0, eob := false, eoi := false }

/-- A zeroed window record, standing for uninitialised window storage. -/
def blank_insn : GumArm64Instruction :=
  { mnemonic := GUM_ARM64_UNKNOWN, address := 0, length := 0, pc := 0 }

/-- A zeroed relocator struct, standing for an uninitialised `GumArm64Relocator`. -/
def blank_relocator : GumArm64Relocator :=
  { input_start := 0, input_cur := 0, input_pc := 0, input_insns := fun _ => blank_insn
    output := gum_arm64_writer_init 0, inpos := 0, outpos := 0, eob := false, eoi := false }

/-- Well-formedness of the window counters and of the records read so far. -/
def WindowInv (self : GumArm64Relocator) : Prop :=
  self.outpos ≤ self.inpos ∧ self.inpos < 2 ^ 32 ∧
    ∀ j, j < self.inpos → (self.input_insns (j % GUM_MAX_INPUT_INSN_COUNT)).length = 4

/-- The state after `k` successful calls of `read_one`. -/
def read_steps (mem : Memory) : Nat → GumArm64Relocator → GumArm64Relocator
  | 0, self => self
  | k + 1, self => read_steps mem k (read_step mem self)

/-- The state after `n` successful calls of `write_one`. -/
def write_steps (mem : Memory) : Nat → GumArm64Relocator → GumArm64Relocator
  | 0, self => self
  | n + 1, self => write_steps mem n (write_step mem self)

/-- Counter facts that the pull loops maintain: `k` instructions read so far. -/
def PullInv (self : GumArm64Relocator) (k : Nat) : Prop :=
  self.eoi = false ∧ self.outpos = 0 ∧ self.inpos = k ∧ read_count self = 4 * k

/-- The number of instructions the `do ... while` pull loop reads for
`min_bytes`: at least one, and then as many as reach `min_bytes`. -/
def pull_count (min_bytes : Nat) : Nat := max 1 ((min_bytes + 3) / 4)

/-- The specification's wording for the returned length: `n` is the smallest
multiple of 4 that is at least `min_bytes`. -/
def smallest_multiple_of_4_ge (min_bytes n : Nat) : Prop :=
  n % 4 = 0 ∧ min_bytes ≤ n ∧ ∀ m, m % 4 = 0 → min_bytes ≤ m → n ≤ m

/-- What the backend has received after relocating 101 Unknown words of which
only the last is nonzero: the last word first, 99 zero words, the last word
again. -/
def overrun_output : GumArm64Writer :=
  { base := 0x2000
    emitted := Emission.put_bytes [1, 0, 0, 0] ::
      (List.replicate 99 (Emission.put_bytes [0, 0, 0, 0]) ++ [Emission.put_bytes [1, 0, 0, 0]]) }

/-! ## Drivers, invariants and observations for the window claims -/

/-- A relocator whose end-of-instructions flag is set, with one pending record. -/
def eoi_relocator : GumArm64Relocator :=
  { one_pending GUM_ARM64_UNKNOWN with eoi := true }

/-- The driver for `k` consecutive calls of `read_one` (null out-parameter):
the state after the last call and the values the calls returned, in order. -/
def read_one_times (mem : Memory) :
    Nat → GumArm64Relocator → Outcome (GumArm64Relocator × List Nat)
  | 0, self => .done (self, [])
  | k + 1, self =>
    match gum_arm64_relocator_read_one mem self none with
    | .aborted => .aborted
    | .out_of_fuel => .out_of_fuel
    | .done (self1, ret, _) =>
      match read_one_times mem k self1 with
      | .aborted => .aborted
      | .out_of_fuel => .out_of_fuel
      | .done (self2, rets) => .done (self2, ret :: rets)

/-- The input cursor after `k` instructions read from address `a`: each read
adds 4 in 64-bit arithmetic. -/
def advance (a : Nat) : Nat → Nat
  | 0 => a
  | k + 1 => (advance a k + 4) % 2 ^ 64

/-- What holds of the live part of the window in every reachable state: the
cursor and running pc are `inpos` instructions past `input_start`, and each of
the last 100 reads left its record in its slot. -/
def RecordsInv (self : GumArm64Relocator) : Prop :=
  self.outpos ≤ self.inpos ∧ self.inpos < 2 ^ 32 ∧
  self.input_cur = advance self.input_start self.inpos ∧
  self.input_pc = advance self.input_start self.inpos ∧
  ∀ j, j < self.inpos → self.inpos ≤ j + 100 →
    (self.input_insns (j % 100)).address = advance self.input_start j ∧
    (self.input_insns (j % 100)).pc = advance self.input_start j ∧
    (self.input_insns (j % 100)).length = 4

/-- The per-instruction emission the specification prescribes for the
instruction at address (and original pc) `a`: one load-address request for ADR
and ADRP, with the target of §4.3, and the 4 source bytes for any other word. -/
def expected_emission (mem : Memory) (a : Nat) : Emission :=
  if read_guint32_le mem a &&& 0x9f000000 = 0x10000000 then
    Emission.put_ldr_reg_address (read_guint32_le mem a &&& 0x1f)
      (((a : Int) + sign_extend 21 (adr_imm21 (read_guint32_le mem a))) % 2 ^ 64).toNat
  else if read_guint32_le mem a &&& 0x9f000000 = 0x90000000 then
    Emission.put_ldr_reg_address (read_guint32_le mem a &&& 0x1f)
      (((a : Int) + sign_extend 33 (adr_imm21 (read_guint32_le mem a) <<< 12)) % 2 ^ 64).toNat
  else Emission.put_bytes (mem_bytes mem a 4)

/-- One call of the relocator interface; `read_one` is made with a null
out-parameter or with the address of a caller variable. -/
inductive Call where
  | read_one (with_out : Bool)
  | peek_next_write_insn
  | skip_one
  | write_one
  | write_all
  deriving DecidableEq, Repr

/-- What a caller sees of one call: the returned value, the record a returned
pointer refers to (slot and content), and what the backend has received so
far; or that the call ended the run. -/
inductive Observation where
  | read_returned (count : Nat) (insn : Option (Nat × GumArm64Instruction))
      (emitted : List Emission)
  | peek_returned (insn : Option (Nat × GumArm64Instruction))
  | skip_returned (emitted : List Emission)
  | write_one_returned (ok : Bool) (emitted : List Emission)
  | write_all_returned (emitted : List Emission)
  | aborted
  | out_of_fuel
  deriving DecidableEq, Repr

/-- The record behind a pointer into the window, if the pointer is not null. -/
def deref (self : GumArm64Relocator) (p : Option Nat) : Option (Nat × GumArm64Instruction) :=
  p.map (fun i => (i, self.input_insns i))

/-- The driver for a sequence of calls on one relocator: the observations of
the calls in order; a fatal assertion ends the run. -/
def run_calls (fuel : Nat) (mem : Memory) :
    List Call → GumArm64Relocator → List Observation
  | [], _ => []
  | Call.read_one with_out :: rest, self =>
    match gum_arm64_relocator_read_one mem self (if with_out then some none else none) with
    | .aborted => [Observation.aborted]
    | .out_of_fuel => [Observation.out_of_fuel]
    | .done (self1, n, out) =>
      Observation.read_returned n (deref self1 out.join) self1.output.emitted ::
        run_calls fuel mem rest self1
  | Call.peek_next_write_insn :: rest, self =>
    Observation.peek_returned (deref self (gum_arm64_relocator_peek_next_write_insn self)) ::
      run_calls fuel mem rest self
  | Call.skip_one :: rest, self =>
    match gum_arm64_relocator_skip_one self with
    | .aborted => [Observation.aborted]
    | .out_of_fuel => [Observation.out_of_fuel]
    | .done self1 =>
      Observation.skip_returned self1.output.emitted :: run_calls fuel mem rest self1
  | Call.write_one :: rest, self =>
    match gum_arm64_relocator_write_one mem self with
    | .aborted => [Observation.aborted]
    | .out_of_fuel => [Observation.out_of_fuel]
    | .done (self1, ok) =>
      Observation.write_one_returned ok self1.output.emitted :: run_calls fuel mem rest self1
  | Call.write_all :: rest, self =>
    match gum_arm64_relocator_write_all fuel mem self with
    | .aborted => [Observation.aborted]
    | .out_of_fuel => [Observation.out_of_fuel]
    | .done self1 =>
      Observation.write_all_returned self1.output.emitted :: run_calls fuel mem rest self1

/-- The window `w` agrees with the window of `self` on every slot written since
the last reset. -/
def Agree (self : GumArm64Relocator) (w : Nat → GumArm64Instruction) : Prop :=
  self.outpos ≤ self.inpos ∧
    ∀ i, i < self.inpos →
      self.input_insns (i % GUM_MAX_INPUT_INSN_COUNT) = w (i % GUM_MAX_INPUT_INSN_COUNT)

/-- The relocator `self` with the window storage replaced by `w`. -/
def with_window (self : GumArm64Relocator) (w : Nat → GumArm64Instruction) :
    GumArm64Relocator :=
  { self with input_insns := w }

/-- The addresses `lo <= a < hi` as the readable part of the process memory. -/
def readable_range (lo hi : Nat) : Nat → Bool := fun a => decide (lo ≤ a ∧ a < hi)

/-! ## Bit-field arithmetic of `rewrite_adr` -/

theorem imm_hi_lt (raw : Nat) : (raw >>> 5) &&& 0x7ffff < 2 ^ 19 := by
  have h : (0x7ffff : Nat) = 2 ^ 19 - 1 := by norm_num
  rw [h, Nat.and_pow_two_sub_one_eq_mod]
  exact Nat.mod_lt _ (by norm_num)

theorem imm_lo_lt (raw : Nat) : (raw >>> 29) &&& 3 < 4 := by
  have h : (3 : Nat) = 2 ^ 2 - 1 := by norm_num
  rw [h, Nat.and_pow_two_sub_one_eq_mod]
  exact Nat.mod_lt _ (by norm_num)

theorem or_shift2 (hi lo : Nat) (hlo : lo < 4) : (hi <<< 2) ||| lo = 4 * hi + lo := by
  rw [Nat.shiftLeft_eq, Nat.mul_comm hi]
  exact (Nat.mul_add_lt_is_or (i := 2) hlo hi).symm

theorem or_shift14 (hi lo : Nat) (hlo : lo < 4) :
    (hi <<< 14) ||| (lo <<< 12) = 4096 * (4 * hi + lo) := by
  rw [Nat.shiftLeft_eq, Nat.shiftLeft_eq, Nat.mul_comm hi]
  have h : lo * 2 ^ 12 < 2 ^ 14 := by omega
  rw [← Nat.mul_add_lt_is_or (i := 14) h hi]
  omega

theorem bit18 (hi : Nat) (hhi : hi < 2 ^ 19) : hi &&& 0x40000 ≠ 0 ↔ 2 ^ 18 ≤ hi := by
  have h : (0x40000 : Nat) = 2 ^ 18 := by norm_num
  rw [h, Nat.and_two_pow, Nat.testBit_to_div_mod]
  by_cases hb : hi / 2 ^ 18 % 2 = 1
  · simp only [hb, decide_True, Bool.toNat_true]; omega
  · simp only [hb, decide_False, Bool.toNat_false]; omega

theorem or_mask21 (x : Nat) (hx : x < 2 ^ 21) :
    0xffffffffffe00000 ||| x = 0xffffffffffe00000 + x := by
  have h : (0xffffffffffe00000 : Nat) = 2 ^ 21 * (2 ^ 43 - 1) := by norm_num
  rw [h]
  exact (Nat.mul_add_lt_is_or hx _).symm

theorem or_mask33 (x : Nat) (hx : x < 2 ^ 33) :
    0xfffffffe00000000 ||| x = 0xfffffffe00000000 + x := by
  have h : (0xfffffffe00000000 : Nat) = 2 ^ 33 * (2 ^ 31 - 1) := by norm_num
  rw [h]
  exact (Nat.mul_add_lt_is_or hx _).symm

/-- The ADR distance of the code is the sign extension of the 21-bit field,
modulo `2^64`. -/
theorem adr_distance_eq (raw : Nat) :
    ((adr_distance raw : Nat) : Int) % 2 ^ 64 = sign_extend 21 (adr_imm21 raw) % 2 ^ 64 := by
  have hhi := imm_hi_lt raw
  have hlo := imm_lo_lt raw
  have hb := bit18 _ hhi
  unfold adr_distance sign_extend adr_imm21
  simp only []
  generalize (raw >>> 5) &&& 0x7ffff = hi at *
  generalize (raw >>> 29) &&& 3 = lo at *
  rw [Nat.or_assoc, or_shift2 hi lo hlo]
  by_cases h : hi &&& 0x40000 ≠ 0
  · have h18 := hb.mp h
    rw [if_pos h, or_mask21 _ (by omega), if_neg (by omega)]
    omega
  · have h18 : ¬ 2 ^ 18 ≤ hi := fun c => h (hb.mpr c)
    rw [if_neg h, if_pos (by omega)]
    omega

/-- The ADRP distance of the code is the sign extension from 33 bits of the
21-bit field shifted left by 12, modulo `2^64`. -/
theorem adrp_distance_eq (raw : Nat) :
    ((adrp_distance raw : Nat) : Int) % 2 ^ 64 =
      sign_extend 33 (adr_imm21 raw <<< 12) % 2 ^ 64 := by
  have hhi := imm_hi_lt raw
  have hlo := imm_lo_lt raw
  have hb := bit18 _ hhi
  unfold adrp_distance sign_extend adr_imm21
  simp only []
  generalize (raw >>> 5) &&& 0x7ffff = hi at *
  generalize (raw >>> 29) &&& 3 = lo at *
  rw [Nat.or_assoc, or_shift14 hi lo hlo, or_shift2 hi lo hlo, Nat.shiftLeft_eq]
  by_cases h : hi &&& 0x40000 ≠ 0
  · have h18 := hb.mp h
    rw [if_pos h, or_mask33 _ (by omega), if_neg (by omega)]
    omega
  · have h18 : ¬ 2 ^ 18 ≤ hi := fun c => h (hb.mpr c)
    rw [if_neg h, if_pos (by omega)]
    omega

/-- For ADR the address the code loads is the value the instruction produces
under its A64 definition, at every program counter below `2^64`. -/
theorem adr_target_eq_a64 (raw P : Nat) :
    (P + adr_distance raw) % 2 ^ 64 = a64_adr_value raw P := by
  have h := adr_distance_eq raw
  unfold a64_adr_value
  omega

/-- For ADRP the address the code loads is the A64 value when the program
counter is 4KB-aligned. -/
theorem adrp_target_eq_a64_of_aligned (raw P : Nat) (hP : P % 4096 = 0) :
    (P + adrp_distance raw) % 2 ^ 64 = a64_adrp_value raw P := by
  have h := adrp_distance_eq raw
  unfold a64_adrp_value
  omega

/-! ## One call of `write_one` and `read_one` -/

theorem write_one_eq (mem : Memory) (self : GumArm64Relocator)
    (hne : self.outpos ≠ self.inpos) (hle : (self.outpos + 1) % 2 ^ 32 ≤ self.inpos) :
    gum_arm64_relocator_write_one mem self = .done (write_step mem self, true) := by
  unfold gum_arm64_relocator_write_one gum_arm64_relocator_peek_next_write_insn
    gum_arm64_relocator_increment_outpos
  simp only [hne, if_false, hle, if_true]
  unfold write_step emission_for
  cases hm : (self.input_insns (gum_arm64_relocator_outpos self)).mnemonic <;>
    simp [hm, gum_arm64_relocator_rewrite_adr, gum_arm64_writer_put_bytes,
      gum_arm64_writer_put_ldr_reg_address, adr_distance, adrp_distance]
  · split_ifs <;> rfl
  · split_ifs <;> rfl

theorem write_one_empty (mem : Memory) (self : GumArm64Relocator)
    (he : self.outpos = self.inpos) :
    gum_arm64_relocator_write_one mem self = .done (self, false) := by
  unfold gum_arm64_relocator_write_one gum_arm64_relocator_peek_next_write_insn
  simp only [he, if_true]

theorem write_one_abort (mem : Memory) (self : GumArm64Relocator)
    (hne : self.outpos ≠ self.inpos) (hle : ¬ (self.outpos + 1) % 2 ^ 32 ≤ self.inpos) :
    gum_arm64_relocator_write_one mem self = .aborted := by
  unfold gum_arm64_relocator_write_one gum_arm64_relocator_peek_next_write_insn
    gum_arm64_relocator_increment_outpos
  simp only [hne, if_false, hle]

theorem read_one_eq (mem : Memory) (self : GumArm64Relocator) (i : Option (Option Nat))
    (heoi : self.eoi = false) (hlt : self.outpos < (self.inpos + 1) % 2 ^ 32) :
    gum_arm64_relocator_read_one mem self i =
      .done (read_step mem self, read_count (read_step mem self),
        i.map (fun _ => some (gum_arm64_relocator_inpos self))) := by
  unfold gum_arm64_relocator_read_one gum_arm64_relocator_increment_inpos
  simp only [heoi, Bool.false_eq_true, if_false, gt_iff_lt, hlt, if_true]
  cases i <;>
    by_cases h1 : read_guint32_le mem self.input_cur &&& 0x9f000000 = 0x10000000 <;>
    by_cases h2 : read_guint32_le mem self.input_cur &&& 0x9f000000 = 0x90000000 <;>
    simp [read_step, decode_insn, read_count, h1, h2, heoi]

theorem read_one_eoi (mem : Memory) (self : GumArm64Relocator) (i : Option (Option Nat))
    (heoi : self.eoi = true) :
    gum_arm64_relocator_read_one mem self i = .done (self, 0, i) := by
  unfold gum_arm64_relocator_read_one
  simp only [heoi, if_true]

theorem read_one_abort (mem : Memory) (self : GumArm64Relocator) (i : Option (Option Nat))
    (heoi : self.eoi = false) (hlt : ¬ self.outpos < (self.inpos + 1) % 2 ^ 32) :
    gum_arm64_relocator_read_one mem self i = .aborted := by
  unfold gum_arm64_relocator_read_one gum_arm64_relocator_increment_inpos
  simp only [heoi, Bool.false_eq_true, if_false, gt_iff_lt, hlt]

/-! ## Invariants, loops and window contents -/

theorem read_one_cases (mem : Memory) (self self1 : GumArm64Relocator)
    (i out : Option (Option Nat)) (n : Nat)
    (h : gum_arm64_relocator_read_one mem self i = .done (self1, n, out)) :
    self1 = self ∨ (self.outpos < (self.inpos + 1) % 2 ^ 32 ∧ self1 = read_step mem self) := by
  cases heoi : self.eoi
  · by_cases hlt : self.outpos < (self.inpos + 1) % 2 ^ 32
    · rw [read_one_eq mem self i heoi hlt] at h
      injection h with h
      injection h with h1 h2
      exact Or.inr ⟨hlt, h1.symm⟩
    · rw [read_one_abort mem self i heoi hlt] at h
      cases h
  · rw [read_one_eoi mem self i heoi] at h
    injection h with h
    injection h with h1 h2
    exact Or.inl h1.symm

theorem write_one_cases (mem : Memory) (self self1 : GumArm64Relocator) (b : Bool)
    (h : gum_arm64_relocator_write_one mem self = .done (self1, b)) :
    (self.outpos = self.inpos ∧ self1 = self ∧ b = false) ∨
      (self.outpos ≠ self.inpos ∧ (self.outpos + 1) % 2 ^ 32 ≤ self.inpos ∧
        self1 = write_step mem self ∧ b = true) := by
  by_cases he : self.outpos = self.inpos
  · rw [write_one_empty mem self he] at h
    injection h with h
    injection h with h1 h2
    exact Or.inl ⟨he, h1.symm, h2.symm⟩
  · by_cases hle : (self.outpos + 1) % 2 ^ 32 ≤ self.inpos
    · rw [write_one_eq mem self he hle] at h
      injection h with h
      injection h with h1 h2
      exact Or.inr ⟨he, hle, h1.symm, h2.symm⟩
    · rw [write_one_abort mem self he hle] at h
      cases h

theorem skip_one_cases (self self1 : GumArm64Relocator)
    (h : gum_arm64_relocator_skip_one self = .done self1) :
    self.outpos ≠ self.inpos ∧ (self.outpos + 1) % 2 ^ 32 ≤ self.inpos ∧
      self1 = { self with outpos := (self.outpos + 1) % 2 ^ 32 } := by
  unfold gum_arm64_relocator_skip_one gum_arm64_relocator_peek_next_write_insn
    gum_arm64_relocator_increment_outpos at h
  by_cases he : self.outpos = self.inpos
  · rw [if_pos he] at h
    cases h
  · rw [if_neg he] at h
    by_cases hle : (self.outpos + 1) % 2 ^ 32 ≤ self.inpos
    · simp only [] at h
      rw [if_pos hle] at h
      injection h with h
      exact ⟨he, hle, h.symm⟩
    · simp only [] at h
      rw [if_neg hle] at h
      cases h

theorem windowInv_reset (relocator : GumArm64Relocator) (input_code : Nat)
    (output : GumArm64Writer) :
    WindowInv (gum_arm64_relocator_reset relocator input_code output) := by
  refine ⟨Nat.le_refl _, by simp [gum_arm64_relocator_reset], ?_⟩
  intro j hj
  simp [gum_arm64_relocator_reset] at hj

theorem windowInv_read_step (mem : Memory) (self : GumArm64Relocator)
    (hinv : WindowInv self) (hroom : self.outpos < (self.inpos + 1) % 2 ^ 32) :
    WindowInv (read_step mem self) := by
  obtain ⟨h1, h2, h3⟩ := hinv
  refine ⟨?_, ?_, ?_⟩
  · simp only [read_step]; omega
  · simp only [read_step]; omega
  · intro j hj
    simp only [read_step, gum_arm64_relocator_inpos] at hj ⊢
    by_cases hs : j % GUM_MAX_INPUT_INSN_COUNT = self.inpos % GUM_MAX_INPUT_INSN_COUNT
    · simp [hs, decode_insn]
    · rw [if_neg hs]
      apply h3
      have : (self.inpos + 1) % 2 ^ 32 ≤ self.inpos + 1 := Nat.mod_le _ _
      by_contra hc
      have : j = self.inpos := by omega
      exact hs (by rw [this])

theorem windowInv_write_step (mem : Memory) (self : GumArm64Relocator)
    (hinv : WindowInv self) (hle : (self.outpos + 1) % 2 ^ 32 ≤ self.inpos) :
    WindowInv (write_step mem self) := by
  obtain ⟨h1, h2, h3⟩ := hinv
  exact ⟨hle, h2, h3⟩

theorem windowInv_write_one (mem : Memory) (self self1 : GumArm64Relocator) (b : Bool)
    (hinv : WindowInv self)
    (h : gum_arm64_relocator_write_one mem self = .done (self1, b)) : WindowInv self1 := by
  rcases write_one_cases mem self self1 b h with ⟨_, h1, _⟩ | ⟨_, hle, h1, _⟩
  · rw [h1]; exact hinv
  · rw [h1]; exact windowInv_write_step mem self hinv hle

theorem windowInv_write_all_loop (mem : Memory) :
    ∀ (fuel : Nat) (self self1 : GumArm64Relocator) (count count1 : Nat),
      WindowInv self →
      gum_arm64_relocator_write_all_loop mem fuel self count = .done (self1, count1) →
      WindowInv self1 := by
  intro fuel
  induction fuel with
  | zero =>
    intro self self1 count count1 _ h
    simp [gum_arm64_relocator_write_all_loop] at h
  | succ fuel ih =>
    intro self self1 count count1 hinv h
    unfold gum_arm64_relocator_write_all_loop at h
    cases hw : gum_arm64_relocator_write_one mem self with
    | aborted => rw [hw] at h; cases h
    | out_of_fuel => rw [hw] at h; cases h
    | done res =>
      obtain ⟨s, b⟩ := res
      rw [hw] at h
      have hs := windowInv_write_one mem self s b hinv hw
      cases b
      · simp only at h
        injection h with h
        injection h with h1 h2
        rw [← h1]; exact hs
      · exact ih s self1 _ count1 hs h

theorem windowInv_of_reachable (self : GumArm64Relocator) (h : Reachable self) :
    WindowInv self := by
  induction h with
  | init relocator storage input_code output => exact windowInv_reset _ _ _
  | reset relocator input_code output => exact windowInv_reset _ _ _
  | read_one mem self self1 instruction out n _ hr ih =>
    rcases read_one_cases mem self self1 instruction out n hr with h1 | ⟨hroom, h1⟩
    · rw [h1]; exact ih
    · rw [h1]; exact windowInv_read_step mem self ih hroom
  | skip_one self self1 _ hs ih =>
    obtain ⟨_, hle, h1⟩ := skip_one_cases self self1 hs
    rw [h1]
    exact ⟨hle, ih.2.1, ih.2.2⟩
  | write_one mem self self1 b _ hw ih => exact windowInv_write_one mem self self1 b ih hw
  | write_all fuel mem self self1 _ hw ih =>
    unfold gum_arm64_relocator_write_all at hw
    cases hl : gum_arm64_relocator_write_all_loop mem fuel self 0 with
    | aborted => rw [hl] at hw; cases hw
    | out_of_fuel => rw [hl] at hw; cases hw
    | done res =>
      obtain ⟨s, c⟩ := res
      rw [hl] at hw
      simp only at hw
      by_cases hc : c > 0
      · rw [if_pos hc] at hw
        injection hw with hw
        rw [← hw]
        exact windowInv_write_all_loop mem fuel self s 0 c ih hl
      · rw [if_neg hc] at hw
        cases hw

theorem read_count_read_step (mem : Memory) (self : GumArm64Relocator) :
    read_count (read_step mem self) = (read_count self + 4) % 2 ^ 32 := by
  simp only [read_count, read_step]
  omega

theorem read_count_reset (relocator : GumArm64Relocator) (input_code : Nat)
    (output : GumArm64Writer) :
    read_count (gum_arm64_relocator_reset relocator input_code output) = 0 := by
  simp only [read_count, gum_arm64_relocator_reset]
  omega

theorem pullInv_reset (relocator : GumArm64Relocator) (input_code : Nat)
    (output : GumArm64Writer) :
    PullInv (gum_arm64_relocator_reset relocator input_code output) 0 :=
  ⟨rfl, rfl, rfl, read_count_reset relocator input_code output⟩

theorem pullInv_read_step (mem : Memory) (self : GumArm64Relocator) (k : Nat)
    (h : PullInv self k) (hk : 4 * (k + 1) < 2 ^ 32) : PullInv (read_step mem self) (k + 1) := by
  obtain ⟨h1, h2, h3, h4⟩ := h
  refine ⟨h1, h2, ?_, ?_⟩
  · simp only [read_step, h3]; omega
  · rw [read_count_read_step, h4]; omega

theorem pullInv_read_one (mem : Memory) (self : GumArm64Relocator) (k : Nat)
    (h : PullInv self k) (hk : k + 1 < 2 ^ 32) :
    gum_arm64_relocator_read_one mem self none =
      .done (read_step mem self, (4 * (k + 1)) % 2 ^ 32, none) := by
  obtain ⟨h1, h2, h3, h4⟩ := h
  rw [read_one_eq mem self none h1 (by omega), read_count_read_step, h4]
  rfl

theorem relocate_loop_eq (mem : Memory) (min_bytes K : Nat) (hK : 4 * K < 2 ^ 32)
    (hmin : min_bytes ≤ 4 * K) (hlow : ∀ j, 1 ≤ j → j < K → 4 * j < min_bytes) :
    ∀ (d k fuel : Nat) (self : GumArm64Relocator), k + d = K → 1 ≤ d → d ≤ fuel →
      PullInv self k →
      gum_arm64_relocator_relocate_loop mem min_bytes fuel self =
        .done (read_steps mem d self, 4 * K) := by
  intro d
  induction d with
  | zero => intro k fuel self _ hd; omega
  | succ d ih =>
    intro k fuel self hkd _ hfuel hinv
    obtain ⟨fuel, rfl⟩ : ∃ f, fuel = f + 1 := ⟨fuel - 1, by omega⟩
    unfold gum_arm64_relocator_relocate_loop
    rw [pullInv_read_one mem self k hinv (by omega)]
    have hmod : (4 * (k + 1)) % 2 ^ 32 = 4 * (k + 1) := Nat.mod_eq_of_lt (by omega)
    simp only [hmod]
    rw [if_pos (by omega)]
    by_cases hd : d = 0
    · subst hd
      rw [if_neg (by omega)]
      have : k + 1 = K := by omega
      rw [this]; rfl
    · rw [if_pos (hlow (k + 1) (by omega) (by omega))]
      rw [ih (k + 1) fuel (read_step mem self) (by omega) (by omega) (by omega)
        (pullInv_read_step mem self k hinv (by omega))]
      rfl

theorem read_one_mapped_cases (mem : Memory) (readable : Nat → Bool)
    (self : GumArm64Relocator) (i : Option (Option Nat)) :
    read_one_mapped mem readable self i = .faulted ∨
      read_one_mapped mem readable self i = .ran (gum_arm64_relocator_read_one mem self i) := by
  unfold read_one_mapped
  split_ifs
  · exact Or.inl rfl
  · exact Or.inr rfl

theorem relocate_loop_wraps (mem : Memory) (min_bytes : Nat)
    (hbig : 2 ^ 32 - 4 < min_bytes) :
    ∀ (d k fuel : Nat) (self : GumArm64Relocator), k + d = 2 ^ 30 → 1 ≤ d → d ≤ fuel →
      PullInv self k →
      gum_arm64_relocator_relocate_loop mem min_bytes fuel self = .aborted := by
  intro d
  induction d with
  | zero => intro k fuel self _ hd; omega
  | succ d ih =>
    intro k fuel self hkd _ hfuel hinv
    obtain ⟨fuel, rfl⟩ : ∃ f, fuel = f + 1 := ⟨fuel - 1, by omega⟩
    unfold gum_arm64_relocator_relocate_loop
    rw [pullInv_read_one mem self k hinv (by omega)]
    by_cases hd : d = 0
    · subst hd
      have hmod : (4 * (k + 1)) % 2 ^ 32 = 0 := by omega
      simp only [hmod]
      rfl
    · have hmod : (4 * (k + 1)) % 2 ^ 32 = 4 * (k + 1) := Nat.mod_eq_of_lt (by omega)
      simp only [hmod]
      rw [if_pos (by omega), if_pos (by omega)]
      exact ih (k + 1) fuel (read_step mem self) (by omega) (by omega) (by omega)
        (pullInv_read_step mem self k hinv (by omega))

theorem read_steps_frame (mem : Memory) :
    ∀ (k : Nat) (self : GumArm64Relocator),
      (read_steps mem k self).outpos = self.outpos ∧
      (read_steps mem k self).output = self.output ∧
      (read_steps mem k self).eoi = self.eoi ∧
      (read_steps mem k self).input_start = self.input_start := by
  intro k
  induction k with
  | zero => intro self; exact ⟨rfl, rfl, rfl, rfl⟩
  | succ k ih => intro self; exact ih (read_step mem self)

theorem pullInv_read_steps (mem : Memory) :
    ∀ (d k : Nat) (self : GumArm64Relocator), PullInv self k → 4 * (k + d) < 2 ^ 32 →
      PullInv (read_steps mem d self) (k + d) := by
  intro d
  induction d with
  | zero => intro k self h _; exact h
  | succ d ih =>
    intro k self h hk
    have := ih (k + 1) (read_step mem self) (pullInv_read_step mem self k h (by omega))
      (by omega)
    rw [show k + (d + 1) = k + 1 + d by omega]
    exact this

theorem write_all_loop_eq (mem : Memory) :
    ∀ (n fuel count : Nat) (self : GumArm64Relocator), self.outpos + n = self.inpos →
      self.inpos < 2 ^ 32 → count + n < 2 ^ 32 → n + 1 ≤ fuel →
      gum_arm64_relocator_write_all_loop mem fuel self count =
        .done (write_steps mem n self, count + n) := by
  intro n
  induction n with
  | zero =>
    intro fuel count self h1 _ _ hfuel
    obtain ⟨fuel, rfl⟩ : ∃ f, fuel = f + 1 := ⟨fuel - 1, by omega⟩
    unfold gum_arm64_relocator_write_all_loop
    rw [write_one_empty mem self (by omega)]
    rfl
  | succ n ih =>
    intro fuel count self h1 h2 h3 hfuel
    obtain ⟨fuel, rfl⟩ : ∃ f, fuel = f + 1 := ⟨fuel - 1, by omega⟩
    unfold gum_arm64_relocator_write_all_loop
    rw [write_one_eq mem self (by omega) (by omega)]
    have hc : (count + 1) % 2 ^ 32 = count + 1 := Nat.mod_eq_of_lt (by omega)
    simp only [hc]
    have ho : (write_step mem self).outpos = self.outpos + 1 := by
      simp only [write_step]; omega
    have hi : (write_step mem self).inpos = self.inpos := rfl
    rw [ih fuel (count + 1) (write_step mem self) (by rw [ho, hi]; omega)
      (by rw [hi]; exact h2) (by omega) (by omega)]
    rw [show count + 1 + n = count + (n + 1) by omega]
    rfl

theorem write_all_eq (mem : Memory) (n fuel : Nat) (self : GumArm64Relocator)
    (h1 : self.outpos + n = self.inpos) (h2 : self.inpos < 2 ^ 32) (hn : 1 ≤ n)
    (hfuel : n + 1 ≤ fuel) :
    gum_arm64_relocator_write_all fuel mem self = .done (write_steps mem n self) := by
  unfold gum_arm64_relocator_write_all
  rw [write_all_loop_eq mem n fuel 0 self h1 h2 (by omega) hfuel]
  simp only [Nat.zero_add]
  rw [if_pos (by omega)]

theorem relocate_eq (mem : Memory) (rl : GumArm64Relocator)
    (storage : Nat → GumArm64Instruction) (from_ min_bytes to_ fuel : Nat)
    (hmin : min_bytes ≤ 2 ^ 32 - 4) (hfuel : pull_count min_bytes + 1 ≤ fuel) :
    gum_arm64_relocator_relocate fuel mem rl storage from_ min_bytes to_ =
      .done (4 * pull_count min_bytes,
        (write_steps mem (pull_count min_bytes)
          (read_steps mem (pull_count min_bytes)
            (gum_arm64_relocator_init rl storage from_ (gum_arm64_writer_init to_)))).output) := by
  have hK : 4 * pull_count min_bytes < 2 ^ 32 := by unfold pull_count; omega
  have hK1 : 1 ≤ pull_count min_bytes := by unfold pull_count; omega
  unfold gum_arm64_relocator_relocate
  simp only []
  have hinv0 : PullInv (gum_arm64_relocator_init rl storage from_ (gum_arm64_writer_init to_)) 0 :=
    pullInv_reset _ _ _
  rw [relocate_loop_eq mem min_bytes (pull_count min_bytes) hK (by unfold pull_count; omega)
    (by intro j _ _; unfold pull_count at *; omega) (pull_count min_bytes) 0 fuel _
    (by omega) hK1 (by omega) hinv0]
  simp only []
  have hinv := pullInv_read_steps mem (pull_count min_bytes) 0 _ hinv0 (by omega)
  obtain ⟨_, h2, h3, _⟩ := hinv
  rw [write_all_eq mem (pull_count min_bytes) fuel _ (by omega) (by omega) hK1 hfuel]

theorem can_relocate_loop_cases (mem : Memory) (readable : Nat → Bool) (min_bytes : Nat) :
    ∀ (fuel k : Nat) (self : GumArm64Relocator), PullInv self k → k < 2 ^ 30 →
      (∀ j, 1 ≤ j → j ≤ k → 4 * j < min_bytes) →
      gum_arm64_relocator_can_relocate_loop mem readable min_bytes fuel self = .faulted ∨
      gum_arm64_relocator_can_relocate_loop mem readable min_bytes fuel self
        = .ran .out_of_fuel ∨
      gum_arm64_relocator_can_relocate_loop mem readable min_bytes fuel self
        = .ran (.done none) ∨
      ∃ rl1, gum_arm64_relocator_can_relocate_loop mem readable min_bytes fuel self =
          .ran (.done (some (rl1, 4 * pull_count min_bytes))) ∧ min_bytes ≤ 2 ^ 32 - 4 := by
  intro fuel
  induction fuel with
  | zero => intro k self _ _ _; exact Or.inr (Or.inl rfl)
  | succ fuel ih =>
    intro k self hinv hk hlow
    unfold gum_arm64_relocator_can_relocate_loop
    rcases read_one_mapped_cases mem readable self none with hf | hr
    · rw [hf]; exact Or.inl rfl
    rw [hr, pullInv_read_one mem self k hinv (by omega)]
    by_cases hw : k + 1 = 2 ^ 30
    · have hmod : (4 * (k + 1)) % 2 ^ 32 = 0 := by omega
      simp only [hmod]
      exact Or.inr (Or.inr (Or.inl rfl))
    · have hmod : (4 * (k + 1)) % 2 ^ 32 = 4 * (k + 1) := Nat.mod_eq_of_lt (by omega)
      simp only [hmod]
      rw [if_neg (by omega)]
      by_cases hlt : 4 * (k + 1) < min_bytes
      · rw [if_pos hlt]
        exact ih (k + 1) (read_step mem self) (pullInv_read_step mem self k hinv (by omega))
          (by omega) (by
            intro j hj1 hj2
            by_cases hj : j = k + 1
            · rw [hj]; exact hlt
            · exact hlow j hj1 (by omega))
      · rw [if_neg hlt]
        refine Or.inr (Or.inr (Or.inr ⟨read_step mem self, ?_, by omega⟩))
        have hpc : pull_count min_bytes = k + 1 := by
          unfold pull_count
          by_cases hk0 : k = 0
          · subst hk0; omega
          · have := hlow k (by omega) (Nat.le_refl k)
            omega
        rw [hpc]

theorem pullInv_init (rl : GumArm64Relocator) (storage : Nat → GumArm64Instruction)
    (input_code : Nat) (output : GumArm64Writer) :
    PullInv (gum_arm64_relocator_init rl storage input_code output) 0 :=
  pullInv_reset _ _ _

theorem relocate_aborts_of_wrap (mem : Memory) (rl : GumArm64Relocator)
    (storage : Nat → GumArm64Instruction) (from_ min_bytes to_ fuel : Nat)
    (hbig : 2 ^ 32 - 4 < min_bytes) (hfuel : 2 ^ 30 ≤ fuel) :
    gum_arm64_relocator_relocate fuel mem rl storage from_ min_bytes to_ = .aborted := by
  have hinv0 : PullInv (gum_arm64_relocator_init rl storage from_ (gum_arm64_writer_init to_)) 0 :=
    pullInv_reset _ _ _
  unfold gum_arm64_relocator_relocate
  simp only []
  rw [relocate_loop_wraps mem min_bytes hbig (2 ^ 30) 0 fuel _ (by omega) (by norm_num) hfuel
    hinv0]

theorem read_steps_inpos (mem : Memory) :
    ∀ (k : Nat) (self : GumArm64Relocator), self.inpos + k < 2 ^ 32 →
      (read_steps mem k self).inpos = self.inpos + k := by
  intro k
  induction k with
  | zero => intro self _; rfl
  | succ k ih =>
    intro self h
    have h1 : (read_step mem self).inpos = self.inpos + 1 := by
      simp only [read_step]; omega
    show (read_steps mem k (read_step mem self)).inpos = _
    rw [ih (read_step mem self) (by omega), h1]
    omega

theorem read_steps_cursor (mem : Memory) :
    ∀ (k : Nat) (self : GumArm64Relocator),
      (read_steps mem k self).input_cur % 2 ^ 64 = (self.input_cur + 4 * k) % 2 ^ 64 ∧
      (read_steps mem k self).input_pc % 2 ^ 64 = (self.input_pc + 4 * k) % 2 ^ 64 := by
  intro k
  induction k with
  | zero => intro self; exact ⟨rfl, rfl⟩
  | succ k ih =>
    intro self
    have h := ih (read_step mem self)
    have h1 : (read_step mem self).input_cur = (self.input_cur + 4) % 2 ^ 64 := rfl
    have h2 : (read_step mem self).input_pc = (self.input_pc + 4) % 2 ^ 64 := rfl
    show (read_steps mem k (read_step mem self)).input_cur % 2 ^ 64 = _ ∧
      (read_steps mem k (read_step mem self)).input_pc % 2 ^ 64 = _
    rw [h.1, h.2, h1, h2]
    constructor <;> omega

theorem read_steps_below (mem : Memory) :
    ∀ (k : Nat) (self : GumArm64Relocator) (i : Nat),
      self.inpos + k ≤ GUM_MAX_INPUT_INSN_COUNT → i < self.inpos →
      (read_steps mem k self).input_insns i = self.input_insns i := by
  intro k
  induction k with
  | zero => intro self i _ _; rfl
  | succ k ih =>
    intro self i h hi
    unfold GUM_MAX_INPUT_INSN_COUNT at h
    have h1 : (read_step mem self).inpos = self.inpos + 1 := by
      simp only [read_step]; omega
    show (read_steps mem k (read_step mem self)).input_insns i = _
    rw [ih (read_step mem self) i (by rw [h1]; unfold GUM_MAX_INPUT_INSN_COUNT; omega)
      (by omega)]
    simp only [read_step, gum_arm64_relocator_inpos, GUM_MAX_INPUT_INSN_COUNT]
    rw [if_neg (by omega)]

theorem read_steps_window (mem : Memory) :
    ∀ (k : Nat) (self : GumArm64Relocator) (j : Nat),
      self.inpos + k ≤ GUM_MAX_INPUT_INSN_COUNT → j < k →
      (read_steps mem k self).input_insns (self.inpos + j) =
        decode_insn mem (read_steps mem j self).input_cur (read_steps mem j self).input_pc := by
  intro k
  induction k with
  | zero => intro self j _ hj; omega
  | succ k ih =>
    intro self j h hj
    have h100 : self.inpos + (k + 1) ≤ 100 := h
    have h1 : (read_step mem self).inpos = self.inpos + 1 := by
      simp only [read_step]; omega
    show (read_steps mem k (read_step mem self)).input_insns _ = _
    cases j with
    | zero =>
      rw [read_steps_below mem k (read_step mem self) (self.inpos + 0)
        (by rw [h1]; unfold GUM_MAX_INPUT_INSN_COUNT; omega) (by omega)]
      simp only [read_step, gum_arm64_relocator_inpos, GUM_MAX_INPUT_INSN_COUNT, read_steps]
      rw [if_pos (by omega)]
    | succ j =>
      have := ih (read_step mem self) j (by rw [h1]; unfold GUM_MAX_INPUT_INSN_COUNT; omega)
        (by omega)
      rw [h1] at this
      rw [show self.inpos + (j + 1) = self.inpos + 1 + j by omega, this]
      rfl

theorem write_steps_emitted (mem : Memory) :
    ∀ (n : Nat) (self : GumArm64Relocator), self.outpos + n ≤ GUM_MAX_INPUT_INSN_COUNT →
      (write_steps mem n self).output =
        { self.output with
          emitted := self.output.emitted ++
            (List.range n).map
              (fun j => emission_for mem (self.input_insns (self.outpos + j))) } := by
  intro n
  induction n with
  | zero => intro self _; simp [write_steps]
  | succ n ih =>
    intro self h
    have h100 : self.outpos + (n + 1) ≤ 100 := h
    have h1 : (write_step mem self).outpos = self.outpos + 1 := by
      simp only [write_step]; omega
    show (write_steps mem n (write_step mem self)).output = _
    rw [ih (write_step mem self) (by rw [h1]; unfold GUM_MAX_INPUT_INSN_COUNT; omega), h1]
    rw [List.range_succ_eq_map, List.map_cons, List.map_map]
    simp only [write_step, gum_arm64_relocator_outpos, GUM_MAX_INPUT_INSN_COUNT,
      List.append_assoc, List.singleton_append, Nat.add_zero]
    rw [Nat.mod_eq_of_lt (by omega)]
    congr 2
    apply congrArg
    apply List.map_congr_left
    intro j _
    simp only [Function.comp, Nat.succ_eq_add_one]
    rw [show self.outpos + 1 + j = self.outpos + (j + 1) by omega]

theorem mem_byte_congr (mem : Memory) (a b : Nat) (h : a % 2 ^ 64 = b % 2 ^ 64) :
    mem_byte mem a = mem_byte mem b := by
  unfold mem_byte; rw [h]

theorem mem_bytes_congr (mem : Memory) (a b len : Nat) (h : a % 2 ^ 64 = b % 2 ^ 64) :
    mem_bytes mem a len = mem_bytes mem b len := by
  unfold mem_bytes
  apply List.map_congr_left
  intro i _
  exact mem_byte_congr mem _ _ (by omega)

theorem read_guint32_le_congr (mem : Memory) (a b : Nat) (h : a % 2 ^ 64 = b % 2 ^ 64) :
    read_guint32_le mem a = read_guint32_le mem b := by
  unfold read_guint32_le
  rw [mem_byte_congr mem a b h, mem_byte_congr mem (a + 1) (b + 1) (by omega),
    mem_byte_congr mem (a + 2) (b + 2) (by omega), mem_byte_congr mem (a + 3) (b + 3) (by omega)]

theorem mem_bytes_add (mem : Memory) (a m n : Nat) :
    mem_bytes mem a (m + n) = mem_bytes mem a m ++ mem_bytes mem (a + m) n := by
  unfold mem_bytes
  rw [List.range_add, List.map_append, List.map_map]
  congr 1
  apply List.map_congr_left
  intro i _
  simp only [Function.comp, Nat.add_assoc]

theorem verbatim_bytes_append (xs ys : List Emission) :
    verbatim_bytes (xs ++ ys) = verbatim_bytes xs ++ verbatim_bytes ys := by
  induction xs with
  | nil => rfl
  | cons x xs ih =>
    cases x with
    | put_bytes b => simp [verbatim_bytes, ih]
    | put_ldr_reg_address r a => simp [verbatim_bytes, ih]

theorem verbatim_bytes_chunks (mem : Memory) (a : Nat) :
    ∀ K : Nat,
      verbatim_bytes ((List.range K).map (fun j => Emission.put_bytes (mem_bytes mem (a + 4 * j) 4)))
        = mem_bytes mem a (4 * K) := by
  intro K
  induction K with
  | zero => rfl
  | succ K ih =>
    rw [List.range_succ, List.map_append, verbatim_bytes_append, ih,
      show 4 * (K + 1) = 4 * K + 4 by omega, mem_bytes_add]
    simp [verbatim_bytes]

theorem relocate_emitted (mem : Memory) (rl : GumArm64Relocator)
    (storage : Nat → GumArm64Instruction) (from_ min_bytes to_ fuel : Nat)
    (hmin : min_bytes ≤ 400) (hfuel : pull_count min_bytes + 1 ≤ fuel) :
    gum_arm64_relocator_relocate fuel mem rl storage from_ min_bytes to_ =
      .done (4 * pull_count min_bytes,
        { base := to_
          emitted := (List.range (pull_count min_bytes)).map (fun j =>
            emission_for mem
              (decode_insn mem
                (read_steps mem j
                  (gum_arm64_relocator_init rl storage from_ (gum_arm64_writer_init to_))).input_cur
                (read_steps mem j
                  (gum_arm64_relocator_init rl storage from_ (gum_arm64_writer_init to_))).input_pc)) }) := by
  rw [relocate_eq mem rl storage from_ min_bytes to_ fuel (by omega) hfuel]
  have hK : pull_count min_bytes ≤ 100 := by unfold pull_count; omega
  obtain ⟨ho, hw, _, _⟩ := read_steps_frame mem (pull_count min_bytes)
    (gum_arm64_relocator_init rl storage from_ (gum_arm64_writer_init to_))
  have ho0 : (read_steps mem (pull_count min_bytes)
      (gum_arm64_relocator_init rl storage from_ (gum_arm64_writer_init to_))).outpos = 0 := ho
  rw [write_steps_emitted mem (pull_count min_bytes) _
    (by rw [ho0]; unfold GUM_MAX_INPUT_INSN_COUNT; omega), hw, ho0]
  refine congrArg _ (congrArg _ ?_)
  show GumArm64Writer.mk to_ ([] ++ _) = GumArm64Writer.mk to_ _
  rw [List.nil_append]
  apply congrArg
  apply List.map_congr_left
  intro j hj
  have hj' : j < pull_count min_bytes := List.mem_range.mp hj
  have := read_steps_window mem (pull_count min_bytes)
    (gum_arm64_relocator_init rl storage from_ (gum_arm64_writer_init to_)) j
    (by show 0 + _ ≤ 100; omega) hj'
  rw [show (gum_arm64_relocator_init rl storage from_ (gum_arm64_writer_init to_)).inpos = 0
    from rfl] at this
  rw [this]

/-! ## Window records, single calls and observational equivalence -/

theorem write_steps_counters (mem : Memory) :
    ∀ (n : Nat) (self : GumArm64Relocator), self.outpos + n < 2 ^ 32 →
      (write_steps mem n self).outpos = self.outpos + n ∧
      (write_steps mem n self).inpos = self.inpos ∧
      (write_steps mem n self).output.emitted.length = self.output.emitted.length + n := by
  intro n
  induction n with
  | zero => intro self _; exact ⟨rfl, rfl, rfl⟩
  | succ n ih =>
    intro self h
    have h1 : (write_step mem self).outpos = self.outpos + 1 := by
      simp only [write_step]; omega
    have h2 : (write_step mem self).inpos = self.inpos := rfl
    have h3 : (write_step mem self).output.emitted.length = self.output.emitted.length + 1 := by
      simp [write_step]
    obtain ⟨a, b, c⟩ := ih (write_step mem self) (by omega)
    show (write_steps mem n (write_step mem self)).outpos = _ ∧
      (write_steps mem n (write_step mem self)).inpos = _ ∧
      (write_steps mem n (write_step mem self)).output.emitted.length = _
    rw [a, b, c, h1, h2, h3]
    omega

theorem read_one_times_eq (mem : Memory) :
    ∀ (k k0 : Nat) (self : GumArm64Relocator), PullInv self k0 → 4 * (k0 + k) < 2 ^ 32 →
      read_one_times mem k self =
        .done (read_steps mem k self, (List.range k).map (fun i => 4 * (k0 + i + 1))) := by
  intro k
  induction k with
  | zero => intro k0 self _ _; rfl
  | succ k ih =>
    intro k0 self hinv hk
    unfold read_one_times
    rw [pullInv_read_one mem self k0 hinv (by omega)]
    have hmod : (4 * (k0 + 1)) % 2 ^ 32 = 4 * (k0 + 1) := Nat.mod_eq_of_lt (by omega)
    simp only [hmod]
    rw [ih (k0 + 1) (read_step mem self) (pullInv_read_step mem self k0 hinv (by omega))
      (by omega)]
    simp only [read_steps]
    rw [List.range_succ_eq_map, List.map_cons, List.map_map]
    congr 3
    apply List.map_congr_left
    intro i _
    simp only [Function.comp, Nat.succ_eq_add_one]
    omega

theorem read_steps_succ_last (mem : Memory) :
    ∀ (k : Nat) (self : GumArm64Relocator),
      read_steps mem (k + 1) self = read_step mem (read_steps mem k self) := by
  intro k
  induction k with
  | zero => intro self; rfl
  | succ k ih =>
    intro self
    show read_steps mem (k + 1) (read_step mem self) = _
    rw [ih (read_step mem self)]
    rfl

theorem read_steps_cursor_lt (mem : Memory) :
    ∀ (k : Nat) (self : GumArm64Relocator), self.input_cur < 2 ^ 64 → self.input_pc < 2 ^ 64 →
      (read_steps mem k self).input_cur < 2 ^ 64 ∧ (read_steps mem k self).input_pc < 2 ^ 64 := by
  intro k
  induction k with
  | zero => intro self h1 h2; exact ⟨h1, h2⟩
  | succ k ih =>
    intro self _ _
    exact ih (read_step mem self) (Nat.mod_lt _ (by norm_num)) (Nat.mod_lt _ (by norm_num))

theorem read_steps_reset_cursor (mem : Memory) (relocator : GumArm64Relocator)
    (A : Nat) (output : GumArm64Writer) (k : Nat) (hA : A + 4 * k < 2 ^ 64) :
    (read_steps mem k (gum_arm64_relocator_reset relocator A output)).input_cur = A + 4 * k ∧
    (read_steps mem k (gum_arm64_relocator_reset relocator A output)).input_pc = A + 4 * k := by
  obtain ⟨h1, h2⟩ := read_steps_cursor mem k (gum_arm64_relocator_reset relocator A output)
  obtain ⟨h3, h4⟩ := read_steps_cursor_lt mem k (gum_arm64_relocator_reset relocator A output)
    (show A < 2 ^ 64 by omega) (show A < 2 ^ 64 by omega)
  have h5 : (gum_arm64_relocator_reset relocator A output).input_cur = A := rfl
  have h6 : (gum_arm64_relocator_reset relocator A output).input_pc = A := rfl
  rw [h5] at h1
  rw [h6] at h2
  constructor <;> omega

theorem advance_eq (a : Nat) : ∀ k : Nat, a + 4 * k < 2 ^ 64 → advance a k = a + 4 * k := by
  intro k
  induction k with
  | zero => intro _; rfl
  | succ k ih =>
    intro h
    show (advance a k + 4) % 2 ^ 64 = _
    rw [ih (by omega)]
    omega

theorem write_all_loop_preserves (P : GumArm64Relocator → Prop) (mem : Memory)
    (hwrite : ∀ s, P s → s.outpos ≠ s.inpos → (s.outpos + 1) % 2 ^ 32 ≤ s.inpos →
      P (write_step mem s)) :
    ∀ (fuel : Nat) (self self1 : GumArm64Relocator) (count count1 : Nat), P self →
      gum_arm64_relocator_write_all_loop mem fuel self count = .done (self1, count1) →
      P self1 := by
  intro fuel
  induction fuel with
  | zero =>
    intro self self1 count count1 _ h
    simp [gum_arm64_relocator_write_all_loop] at h
  | succ fuel ih =>
    intro self self1 count count1 hP h
    unfold gum_arm64_relocator_write_all_loop at h
    cases hw : gum_arm64_relocator_write_one mem self with
    | aborted => rw [hw] at h; cases h
    | out_of_fuel => rw [hw] at h; cases h
    | done res =>
      obtain ⟨s, b⟩ := res
      rw [hw] at h
      rcases write_one_cases mem self s b hw with ⟨_, h1, h2⟩ | ⟨hne, hle, h1, h2⟩
      · subst h1; subst h2
        simp only at h
        injection h with h
        injection h with h1 h2
        rw [← h1]; exact hP
      · subst h1; subst h2
        exact ih _ self1 _ count1 (hwrite self hP hne hle) h

/-- Induction over the reachable states in terms of the step functions. -/
theorem reachable_induction (P : GumArm64Relocator → Prop)
    (hreset : ∀ r a o, P (gum_arm64_relocator_reset r a o))
    (hread : ∀ mem s, P s → s.outpos < (s.inpos + 1) % 2 ^ 32 → P (read_step mem s))
    (hwrite : ∀ mem s, P s → s.outpos ≠ s.inpos → (s.outpos + 1) % 2 ^ 32 ≤ s.inpos →
      P (write_step mem s))
    (hskip : ∀ s, P s → s.outpos ≠ s.inpos → (s.outpos + 1) % 2 ^ 32 ≤ s.inpos →
      P { s with outpos := (s.outpos + 1) % 2 ^ 32 }) :
    ∀ self, Reachable self → P self := by
  intro self h
  induction h with
  | init relocator storage input_code output => exact hreset _ _ _
  | reset relocator input_code output => exact hreset _ _ _
  | read_one mem self self1 instruction out n _ hr ih =>
    rcases read_one_cases mem self self1 instruction out n hr with h1 | ⟨hroom, h1⟩
    · rw [h1]; exact ih
    · rw [h1]; exact hread mem self ih hroom
  | skip_one self self1 _ hs ih =>
    obtain ⟨hne, hle, h1⟩ := skip_one_cases self self1 hs
    rw [h1]
    exact hskip self ih hne hle
  | write_one mem self self1 b _ hw ih =>
    rcases write_one_cases mem self self1 b hw with ⟨_, h1, _⟩ | ⟨hne, hle, h1, _⟩
    · rw [h1]; exact ih
    · rw [h1]; exact hwrite mem self ih hne hle
  | write_all fuel mem self self1 _ hw ih =>
    unfold gum_arm64_relocator_write_all at hw
    cases hl : gum_arm64_relocator_write_all_loop mem fuel self 0 with
    | aborted => rw [hl] at hw; cases hw
    | out_of_fuel => rw [hl] at hw; cases hw
    | done res =>
      obtain ⟨s, c⟩ := res
      rw [hl] at hw
      simp only at hw
      by_cases hc : c > 0
      · rw [if_pos hc] at hw
        injection hw with hw
        rw [← hw]
        exact write_all_loop_preserves P mem (hwrite mem) fuel self s 0 c ih hl
      · rw [if_neg hc] at hw
        cases hw

theorem recordsInv_of_reachable (self : GumArm64Relocator) (h : Reachable self) :
    RecordsInv self := by
  refine reachable_induction RecordsInv ?_ ?_ ?_ ?_ self h
  · intro r a o
    refine ⟨Nat.le_refl _, by simp [gum_arm64_relocator_reset], rfl, rfl, ?_⟩
    intro j hj
    simp [gum_arm64_relocator_reset] at hj
  · intro mem s ⟨h1, h2, h3, h4, h5⟩ hroom
    have hin : (s.inpos + 1) % 2 ^ 32 = s.inpos + 1 := by omega
    refine ⟨?_, ?_, ?_, ?_, ?_⟩
    · simp only [read_step]; omega
    · simp only [read_step]; omega
    · simp only [read_step, hin, h3]; rfl
    · simp only [read_step, hin, h4]; rfl
    · intro j hj hj'
      simp only [read_step, hin, gum_arm64_relocator_inpos, GUM_MAX_INPUT_INSN_COUNT] at hj hj' ⊢
      by_cases hs : j = s.inpos
      · subst hs
        simp [decode_insn, h3, h4]
      · rw [if_neg (by omega)]
        exact h5 j (by omega) (by omega)
  · intro mem s ⟨h1, h2, h3, h4, h5⟩ _ hle
    exact ⟨hle, h2, h3, h4, h5⟩
  · intro s ⟨h1, h2, h3, h4, h5⟩ _ hle
    exact ⟨hle, h2, h3, h4, h5⟩

theorem zero_disp_adr_fields :
    ∀ R, R < 32 →
      (0x10000000 ||| R) &&& 0x9f000000 = 0x10000000 ∧ (0x10000000 ||| R) &&& 0x1f = R ∧
      adr_distance (0x10000000 ||| R) = 0 := by
  decide

theorem zero_disp_adrp_fields :
    ∀ R, R < 32 →
      (0x90000000 ||| R) &&& 0x9f000000 = 0x90000000 ∧ (0x90000000 ||| R) &&& 0x1f = R ∧
      adrp_distance (0x90000000 ||| R) = 0 := by
  decide

theorem emission_for_decode (mem : Memory) (c p a : Nat)
    (hc : c % 2 ^ 64 = a % 2 ^ 64) (hp : p % 2 ^ 64 = a % 2 ^ 64) :
    emission_for mem (decode_insn mem c p) = expected_emission mem a := by
  have hw := read_guint32_le_congr mem c a hc
  unfold expected_emission
  simp only [emission_for, decode_insn, hw]
  by_cases h1 : read_guint32_le mem a &&& 0x9f000000 = 0x10000000
  · simp only [h1, if_true]
    have h := adr_distance_eq (read_guint32_le mem a)
    congr 1
    omega
  · by_cases h2 : read_guint32_le mem a &&& 0x9f000000 = 0x90000000
    · have hne : ¬ (0x90000000 : Nat) = 0x10000000 := by decide
      simp only [h2, hne, if_true, if_false]
      have h := adrp_distance_eq (read_guint32_le mem a)
      congr 1
      omega
    · simp only [h1, h2, if_false]
      rw [mem_bytes_congr mem c a 4 hc]

theorem agree_read_step (mem : Memory) (s : GumArm64Relocator)
    (w : Nat → GumArm64Instruction) (h : Agree s w)
    (hroom : s.outpos < (s.inpos + 1) % 2 ^ 32) :
    Agree (read_step mem s) (read_step mem (with_window s w)).input_insns := by
  obtain ⟨h1, h2⟩ := h
  refine ⟨?_, ?_⟩
  · simp only [read_step]; omega
  · intro i hi
    simp only [read_step, with_window, gum_arm64_relocator_inpos] at hi ⊢
    by_cases hs : i % GUM_MAX_INPUT_INSN_COUNT = s.inpos % GUM_MAX_INPUT_INSN_COUNT
    · simp only [hs, if_true]
    · simp only [hs, if_false]
      apply h2
      have : (s.inpos + 1) % 2 ^ 32 ≤ s.inpos + 1 := Nat.mod_le _ _
      by_contra hc
      have : i = s.inpos := by omega
      exact hs (by rw [this])

theorem sim_read_one (mem : Memory) (s : GumArm64Relocator)
    (w : Nat → GumArm64Instruction) (i : Option (Option Nat)) (h : Agree s w)
    (hi : i.join = none) :
    (gum_arm64_relocator_read_one mem s i = .aborted ∧
      gum_arm64_relocator_read_one mem (with_window s w) i = .aborted) ∨
    ∃ (s1 : GumArm64Relocator) (w1 : Nat → GumArm64Instruction) (n : Nat)
      (out : Option (Option Nat)),
      gum_arm64_relocator_read_one mem s i = .done (s1, n, out) ∧
      gum_arm64_relocator_read_one mem (with_window s w) i = .done (with_window s1 w1, n, out) ∧
      Agree s1 w1 ∧ deref s1 out.join = deref (with_window s1 w1) out.join := by
  cases heoi : s.eoi
  · by_cases hroom : s.outpos < (s.inpos + 1) % 2 ^ 32
    · refine Or.inr ⟨read_step mem s, (read_step mem (with_window s w)).input_insns, _, _,
        read_one_eq mem s i heoi hroom, ?_, agree_read_step mem s w h hroom, ?_⟩
      · rw [read_one_eq mem (with_window s w) i heoi hroom]
        rfl
      · cases i with
        | none => rfl
        | some v =>
          simp [deref, with_window, read_step, gum_arm64_relocator_inpos]
    · exact Or.inl ⟨read_one_abort mem s i heoi hroom,
        read_one_abort mem (with_window s w) i heoi hroom⟩
  · refine Or.inr ⟨s, w, 0, i, read_one_eoi mem s i heoi,
      read_one_eoi mem (with_window s w) i heoi, h, ?_⟩
    rw [hi]; rfl

theorem sim_peek (s : GumArm64Relocator) (w : Nat → GumArm64Instruction) (h : Agree s w) :
    deref s (gum_arm64_relocator_peek_next_write_insn s) =
      deref (with_window s w) (gum_arm64_relocator_peek_next_write_insn (with_window s w)) := by
  obtain ⟨h1, h2⟩ := h
  unfold gum_arm64_relocator_peek_next_write_insn gum_arm64_relocator_outpos
  by_cases he : s.outpos = s.inpos
  · simp [with_window, he, deref]
  · have := h2 s.outpos (by omega)
    simp [with_window, he, deref, this]

theorem sim_skip_one (s : GumArm64Relocator) (w : Nat → GumArm64Instruction)
    (h : Agree s w) :
    (gum_arm64_relocator_skip_one s = .aborted ∧
      gum_arm64_relocator_skip_one (with_window s w) = .aborted) ∨
    ∃ s1 : GumArm64Relocator,
      gum_arm64_relocator_skip_one s = .done s1 ∧
      gum_arm64_relocator_skip_one (with_window s w) = .done (with_window s1 w) ∧
      Agree s1 w := by
  obtain ⟨h1, h2⟩ := h
  unfold gum_arm64_relocator_skip_one gum_arm64_relocator_peek_next_write_insn
    gum_arm64_relocator_increment_outpos
  by_cases he : s.outpos = s.inpos
  · left; simp [with_window, he]
  · by_cases hle : (s.outpos + 1) % 2 ^ 32 ≤ s.inpos
    · right
      refine ⟨{ s with outpos := (s.outpos + 1) % 2 ^ 32 }, ?_, ?_, hle, h2⟩
      · simp only [he, if_false, hle, if_true]
      · simp only [with_window, he, if_false, hle, if_true]
    · left
      simp only [with_window, he, if_false, hle, and_self]

theorem sim_write_one (mem : Memory) (s : GumArm64Relocator)
    (w : Nat → GumArm64Instruction) (h : Agree s w) :
    (gum_arm64_relocator_write_one mem s = .aborted ∧
      gum_arm64_relocator_write_one mem (with_window s w) = .aborted) ∨
    ∃ (s1 : GumArm64Relocator) (b : Bool),
      gum_arm64_relocator_write_one mem s = .done (s1, b) ∧
      gum_arm64_relocator_write_one mem (with_window s w) = .done (with_window s1 w, b) ∧
      Agree s1 w := by
  obtain ⟨h1, h2⟩ := h
  by_cases he : s.outpos = s.inpos
  · exact Or.inr ⟨s, false, write_one_empty mem s he, write_one_empty mem (with_window s w) he,
      h1, h2⟩
  · by_cases hle : (s.outpos + 1) % 2 ^ 32 ≤ s.inpos
    · refine Or.inr ⟨write_step mem s, true, write_one_eq mem s he hle, ?_, hle, h2⟩
      rw [write_one_eq mem (with_window s w) he hle]
      have := h2 s.outpos (by omega)
      simp only [write_step, with_window, gum_arm64_relocator_outpos, this]
    · exact Or.inl ⟨write_one_abort mem s he hle, write_one_abort mem (with_window s w) he hle⟩

theorem sim_write_all_loop (mem : Memory) (w : Nat → GumArm64Instruction) :
    ∀ (fuel : Nat) (s : GumArm64Relocator) (c : Nat), Agree s w →
      (gum_arm64_relocator_write_all_loop mem fuel s c = .aborted ∧
        gum_arm64_relocator_write_all_loop mem fuel (with_window s w) c = .aborted) ∨
      (gum_arm64_relocator_write_all_loop mem fuel s c = .out_of_fuel ∧
        gum_arm64_relocator_write_all_loop mem fuel (with_window s w) c = .out_of_fuel) ∨
      ∃ (s1 : GumArm64Relocator) (c1 : Nat),
        gum_arm64_relocator_write_all_loop mem fuel s c = .done (s1, c1) ∧
        gum_arm64_relocator_write_all_loop mem fuel (with_window s w) c =
          .done (with_window s1 w, c1) ∧
        Agree s1 w := by
  intro fuel
  induction fuel with
  | zero => intro s c _; exact Or.inr (Or.inl ⟨rfl, rfl⟩)
  | succ fuel ih =>
    intro s c h
    unfold gum_arm64_relocator_write_all_loop
    rcases sim_write_one mem s w h with ⟨a, b⟩ | ⟨s1, ok, a, b, hs1⟩
    · rw [a, b]; exact Or.inl ⟨rfl, rfl⟩
    · rw [a, b]
      cases ok
      · exact Or.inr (Or.inr ⟨s1, c, rfl, rfl, hs1⟩)
      · exact ih s1 _ hs1

theorem sim_write_all (fuel : Nat) (mem : Memory) (s : GumArm64Relocator)
    (w : Nat → GumArm64Instruction) (h : Agree s w) :
    (gum_arm64_relocator_write_all fuel mem s = .aborted ∧
      gum_arm64_relocator_write_all fuel mem (with_window s w) = .aborted) ∨
    (gum_arm64_relocator_write_all fuel mem s = .out_of_fuel ∧
      gum_arm64_relocator_write_all fuel mem (with_window s w) = .out_of_fuel) ∨
    ∃ s1 : GumArm64Relocator,
      gum_arm64_relocator_write_all fuel mem s = .done s1 ∧
      gum_arm64_relocator_write_all fuel mem (with_window s w) = .done (with_window s1 w) ∧
      Agree s1 w := by
  unfold gum_arm64_relocator_write_all
  rcases sim_write_all_loop mem w fuel s 0 h with ⟨a, b⟩ | ⟨a, b⟩ | ⟨s1, c1, a, b, hs1⟩
  · rw [a, b]; exact Or.inl ⟨rfl, rfl⟩
  · rw [a, b]; exact Or.inr (Or.inl ⟨rfl, rfl⟩)
  · rw [a, b]
    by_cases hc : c1 > 0
    · exact Or.inr (Or.inr ⟨s1, if_pos hc, if_pos hc, hs1⟩)
    · exact Or.inl ⟨if_neg hc, if_neg hc⟩

theorem run_calls_with_window (fuel : Nat) (mem : Memory) :
    ∀ (calls : List Call) (s : GumArm64Relocator) (w : Nat → GumArm64Instruction),
      Agree s w → run_calls fuel mem calls s = run_calls fuel mem calls (with_window s w) := by
  intro calls
  induction calls with
  | nil => intro s w _; rfl
  | cons call rest ih =>
    intro s w h
    cases call with
    | read_one with_out =>
      simp only [run_calls]
      have hi : (if with_out then some (none : Option Nat) else none).join = none := by
        cases with_out <;> rfl
      rcases sim_read_one mem s w _ h hi with ⟨a, b⟩ | ⟨s1, w1, n, out, a, b, hs1, hd⟩
      · rw [a, b]
      · rw [a, b]
        simp only []
        rw [hd, ih s1 w1 hs1]
        rfl
    | peek_next_write_insn =>
      simp only [run_calls]
      rw [sim_peek s w h, ih s w h]
    | skip_one =>
      simp only [run_calls]
      rcases sim_skip_one s w h with ⟨a, b⟩ | ⟨s1, a, b, hs1⟩
      · rw [a, b]
      · rw [a, b]
        simp only []
        rw [ih s1 w hs1]
        rfl
    | write_one =>
      simp only [run_calls]
      rcases sim_write_one mem s w h with ⟨a, b⟩ | ⟨s1, ok, a, b, hs1⟩
      · rw [a, b]
      · rw [a, b]
        simp only []
        rw [ih s1 w hs1]
        rfl
    | write_all =>
      simp only [run_calls]
      rcases sim_write_all fuel mem s w h with ⟨a, b⟩ | ⟨a, b⟩ | ⟨s1, a, b, hs1⟩
      · rw [a, b]
      · rw [a, b]
      · rw [a, b]
        simp only []
        rw [ih s1 w hs1]
        rfl

theorem rewrite_adr_returns (self : GumArm64Relocator) (ctx : GumCodeGenCtx)
    (h : ctx.insn.mnemonic = GUM_ARM64_ADR ∨ ctx.insn.mnemonic = GUM_ARM64_ADRP) :
    ∃ w : GumArm64Writer, gum_arm64_relocator_rewrite_adr self ctx = .done (true, w) := by
  unfold gum_arm64_relocator_rewrite_adr
  rcases h with h | h
  · simp only [h, if_true]
    split_ifs <;> exact ⟨_, rfl⟩
  · have hne : ¬ GUM_ARM64_ADRP = GUM_ARM64_ADR := by decide
    simp only [h, hne, if_true, if_false]
    split_ifs <;> exact ⟨_, rfl⟩

/-! ## The probe: readable memory, stack buffer, decoder exhaustion -/

/-- C1: a pending record tagged ADR with original program counter `P` makes
`write_one` send exactly one load-address request and no bytes; its register is
`raw & 0x1f` and its address is `(P + d) mod 2^64` with `d` the sign extension
of the 21-bit value `(((raw >> 5) & 0x7ffff) << 2) | ((raw >> 29) & 3)`. -/
theorem C1_write_one_adr (mem : Memory) (self : GumArm64Relocator) (P raw : Nat)
    (hpending : self.outpos < self.inpos)
    (htag : (self.input_insns (gum_arm64_relocator_outpos self)).mnemonic = GUM_ARM64_ADR)
    (hpc : (self.input_insns (gum_arm64_relocator_outpos self)).pc = P)
    (hraw : read_guint32_le mem
      (self.input_insns (gum_arm64_relocator_outpos self)).address = raw) :
    ∃ (self1 : GumArm64Relocator) (target : Nat),
      gum_arm64_relocator_write_one mem self = .done (self1, true) ∧
      self1.output.emitted =
        self.output.emitted ++ [Emission.put_ldr_reg_address (raw &&& 0x1f) target] ∧
      (target : Int) =
        ((P : Int) +
          sign_extend 21 ((((raw >>> 5) &&& 0x7ffff) <<< 2) ||| ((raw >>> 29) &&& 3))) % 2 ^ 64 := by
  refine ⟨write_step mem self, (P + adr_distance raw) % 2 ^ 64,
    write_one_eq mem self (by omega) (by omega), ?_, ?_⟩
  · simp [write_step, emission_for, htag, hpc, hraw]
  · have h := adr_distance_eq raw
    unfold adr_imm21 at h
    omega

theorem C1_write_one_adr_witness :
    (one_pending GUM_ARM64_ADR).outpos < (one_pending GUM_ARM64_ADR).inpos ∧
    ∃ (self1 : GumArm64Relocator) (target : Nat),
      gum_arm64_relocator_write_one (word_at 0x1004 0x10ffffe3) (one_pending GUM_ARM64_ADR)
        = .done (self1, true) ∧
      self1.output.emitted = [Emission.put_ldr_reg_address 3 target] ∧
      (target : Int) = 0x1000 :=
  ⟨by decide, by
    obtain ⟨s, t, h1, h2, h3⟩ := C1_write_one_adr (word_at 0x1004 0x10ffffe3) (one_pending GUM_ARM64_ADR) 0x1004 0x10ffffe3
      (by decide) (by decide) (by decide) (by decide)
    refine ⟨s, t, h1, h2, ?_⟩
    rw [h3]
    decide⟩

/-- C2: a pending record tagged ADRP with original program counter `P` makes
`write_one` send exactly one load-address request; its register is `raw & 0x1f`
and its address is `(P + d) mod 2^64`, where `d` is the 21-bit value
`(((raw >> 5) & 0x7ffff) << 2) | ((raw >> 29) & 3)` shifted left by 12 bits and
sign-extended from 33 bits; `P` enters the sum unmasked. -/
theorem C2_write_one_adrp (mem : Memory) (self : GumArm64Relocator) (P raw : Nat)
    (hpending : self.outpos < self.inpos)
    (htag : (self.input_insns (gum_arm64_relocator_outpos self)).mnemonic = GUM_ARM64_ADRP)
    (hpc : (self.input_insns (gum_arm64_relocator_outpos self)).pc = P)
    (hraw : read_guint32_le mem
      (self.input_insns (gum_arm64_relocator_outpos self)).address = raw) :
    ∃ (self1 : GumArm64Relocator) (target : Nat),
      gum_arm64_relocator_write_one mem self = .done (self1, true) ∧
      self1.output.emitted =
        self.output.emitted ++ [Emission.put_ldr_reg_address (raw &&& 0x1f) target] ∧
      (target : Int) =
        ((P : Int) +
          sign_extend 33
            (((((raw >>> 5) &&& 0x7ffff) <<< 2) ||| ((raw >>> 29) &&& 3)) <<< 12)) % 2 ^ 64 := by
  refine ⟨write_step mem self, (P + adrp_distance raw) % 2 ^ 64,
    write_one_eq mem self (by omega) (by omega), ?_, ?_⟩
  · simp [write_step, emission_for, htag, hpc, hraw]
  · have h := adrp_distance_eq raw
    unfold adr_imm21 at h
    omega

theorem C2_write_one_adrp_witness :
    (one_pending GUM_ARM64_ADRP).outpos < (one_pending GUM_ARM64_ADRP).inpos ∧
    ∃ (self1 : GumArm64Relocator) (target : Nat),
      gum_arm64_relocator_write_one (word_at 0x1004 0xb0000001) (one_pending GUM_ARM64_ADRP)
        = .done (self1, true) ∧
      self1.output.emitted = [Emission.put_ldr_reg_address 1 target] ∧
      (target : Int) = 0x2004 :=
  ⟨by decide, by
    obtain ⟨s, t, h1, h2, h3⟩ := C2_write_one_adrp (word_at 0x1004 0xb0000001)
      (one_pending GUM_ARM64_ADRP) 0x1004 0xb0000001
      (by decide) (by decide) (by decide) (by decide)
    refine ⟨s, t, h1, h2, ?_⟩
    rw [h3]
    decide⟩

/-- C3 (divergence): the ADRP word `0x90000000` (register 0, displacement 0) at
program counter `0x1004` is relocated to a request loading `0x1004`, while the
instruction executing at `0x1004` produces `0x1000` under the A64 definition. -/
theorem C3_adrp_differs_from_a64 :
    gum_arm64_relocator_relocate 2 (word_at 0x1004 0x90000000) blank_relocator
        (fun _ => blank_insn) 0x1004 4 0x2000
      = .done (4, { base := 0x2000, emitted := [Emission.put_ldr_reg_address 0 0x1004] }) ∧
    a64_adrp_value 0x90000000 0x1004 = 0x1000 := by
  constructor <;> decide

/-- C4: with the end-of-instructions flag clear, `read_one` returns normally
and the tag of the record it stores is a function of the little-endian word `w`
at the input cursor alone: ADR iff `(w & 0x9f000000) == 0x10000000`, ADRP iff
`(w & 0x9f000000) == 0x90000000`, Unknown otherwise. -/
theorem C4_read_one_tag (mem : Memory) (self : GumArm64Relocator)
    (instruction : Option (Option Nat))
    (heoi : self.eoi = false) (hroom : self.outpos < (self.inpos + 1) % 2 ^ 32) :
    ∃ (self1 : GumArm64Relocator) (n : Nat) (out : Option (Option Nat)),
      gum_arm64_relocator_read_one mem self instruction = .done (self1, n, out) ∧
      (self1.input_insns (gum_arm64_relocator_inpos self)).mnemonic =
        (if read_guint32_le mem self.input_cur &&& 0x9f000000 = 0x10000000 then GUM_ARM64_ADR
         else if read_guint32_le mem self.input_cur &&& 0x9f000000 = 0x90000000 then
           GUM_ARM64_ADRP
         else GUM_ARM64_UNKNOWN) ∧
      ((self1.input_insns (gum_arm64_relocator_inpos self)).mnemonic = GUM_ARM64_ADR ↔
        read_guint32_le mem self.input_cur &&& 0x9f000000 = 0x10000000) ∧
      ((self1.input_insns (gum_arm64_relocator_inpos self)).mnemonic = GUM_ARM64_ADRP ↔
        read_guint32_le mem self.input_cur &&& 0x9f000000 = 0x90000000) ∧
      ((self1.input_insns (gum_arm64_relocator_inpos self)).mnemonic = GUM_ARM64_UNKNOWN ↔
        (read_guint32_le mem self.input_cur &&& 0x9f000000 ≠ 0x10000000 ∧
          read_guint32_le mem self.input_cur &&& 0x9f000000 ≠ 0x90000000)) := by
  refine ⟨_, _, _, read_one_eq mem self instruction heoi hroom, ?_⟩
  simp only [read_step, decode_insn, if_true]
  by_cases h1 : read_guint32_le mem self.input_cur &&& 0x9f000000 = 0x10000000
  · simp [h1]
  · by_cases h2 : read_guint32_le mem self.input_cur &&& 0x9f000000 = 0x90000000
    · simp [h2]
    · simp [h1, h2]

theorem C4_read_one_tag_witness :
    ∃ (self1 : GumArm64Relocator) (n : Nat) (out : Option (Option Nat)),
      gum_arm64_relocator_read_one (word_at 0x1004 0x10ffffe3)
        (gum_arm64_relocator_reset blank_relocator 0x1004 (gum_arm64_writer_init 0x2000)) none
        = .done (self1, n, out) ∧
      (self1.input_insns 0).mnemonic = GUM_ARM64_ADR := by
  obtain ⟨s, n, out, h1, h2, _⟩ := C4_read_one_tag (word_at 0x1004 0x10ffffe3)
    (gum_arm64_relocator_reset blank_relocator 0x1004 (gum_arm64_writer_init 0x2000)) none
    (by decide) (by decide)
  exact ⟨s, n, out, h1, h2⟩

/-- C5: in a reachable state whose next pending record is tagged Unknown,
`write_one` appends exactly one request to the backend, the four source bytes
at the record's address in address order, and no load-address request. -/
theorem C5_write_one_unknown (mem : Memory) (self : GumArm64Relocator) (p : Nat)
    (hreach : Reachable self)
    (hpeek : gum_arm64_relocator_peek_next_write_insn self = some p)
    (htag : (self.input_insns p).mnemonic = GUM_ARM64_UNKNOWN) :
    ∃ self1 : GumArm64Relocator,
      gum_arm64_relocator_write_one mem self = .done (self1, true) ∧
      self1.output.emitted = self.output.emitted ++
        [Emission.put_bytes
          [mem_byte mem (self.input_insns p).address,
           mem_byte mem ((self.input_insns p).address + 1),
           mem_byte mem ((self.input_insns p).address + 2),
           mem_byte mem ((self.input_insns p).address + 3)]] := by
  obtain ⟨h1, h2, h3⟩ := windowInv_of_reachable self hreach
  unfold gum_arm64_relocator_peek_next_write_insn at hpeek
  by_cases he : self.outpos = self.inpos
  · rw [if_pos he] at hpeek
    cases hpeek
  · rw [if_neg he] at hpeek
    injection hpeek with hp
    subst hp
    have hlen := h3 self.outpos (by omega)
    refine ⟨write_step mem self, write_one_eq mem self he (by omega), ?_⟩
    unfold gum_arm64_relocator_outpos at htag ⊢
    simp [write_step, emission_for, htag, gum_arm64_relocator_outpos, hlen, mem_bytes,
      List.range, List.range.loop]

theorem C5_write_one_unknown_witness :
    ∃ self1 : GumArm64Relocator,
      gum_arm64_relocator_write_one (word_at 0x1004 0xd503201f)
        (read_step (word_at 0x1004 0xd503201f)
          (gum_arm64_relocator_reset blank_relocator 0x1004 (gum_arm64_writer_init 0x2000)))
        = .done (self1, true) ∧
      self1.output.emitted = [Emission.put_bytes [0x1f, 0x20, 0x03, 0xd5]] :=
  C5_write_one_unknown (word_at 0x1004 0xd503201f)
    (read_step (word_at 0x1004 0xd503201f)
      (gum_arm64_relocator_reset blank_relocator 0x1004 (gum_arm64_writer_init 0x2000))) 0
    (Reachable.read_one (word_at 0x1004 0xd503201f) _ _ none _ _
      (Reachable.reset blank_relocator 0x1004 (gum_arm64_writer_init 0x2000))
      (read_one_eq _ _ none (by decide) (by decide)))
    (by decide) (by decide)

set_option maxRecDepth 100000 in
/-- C6 (as stated, refuted): 101 Unknown words at `0x1400`, the last one
(`0x1590`) being `1` and the others `0`, relocated with `min_bytes = 404`: the
call returns 404, but the first four bytes written are those of the 101st word,
not those of the first. -/
theorem C6_counterexample :
    gum_arm64_relocator_relocate 102 (word_at 0x1590 1) blank_relocator
        (fun _ => blank_insn) 0x1400 404 0x2000 = .done (404, overrun_output) ∧
    verbatim_bytes overrun_output.emitted ≠ mem_bytes (word_at 0x1590 1) 0x1400 404 := by
  constructor <;> decide

/-- C6 (amended): for every `min_bytes <= 400` (at most 100 instructions, the
window capacity) and every input whose words up to index `min_bytes / 4` match
neither recognised bitmask, `relocate` returns a count `n`, sends only raw
byte sequences to the backend, and their concatenation is the first `n` bytes
of the source in source order. -/
theorem C6_relocate_copies (mem : Memory) (rl : GumArm64Relocator)
    (storage : Nat → GumArm64Instruction) (from_ min_bytes to_ fuel : Nat)
    (hmin : min_bytes ≤ 400) (hfuel : min_bytes / 4 + 2 ≤ fuel)
    (hunknown : ∀ j, j ≤ min_bytes / 4 →
      read_guint32_le mem (from_ + 4 * j) &&& 0x9f000000 ≠ 0x10000000 ∧
      read_guint32_le mem (from_ + 4 * j) &&& 0x9f000000 ≠ 0x90000000) :
    ∃ (n : Nat) (w : GumArm64Writer),
      gum_arm64_relocator_relocate fuel mem rl storage from_ min_bytes to_ = .done (n, w) ∧
      (∀ e ∈ w.emitted, ∃ bytes, e = Emission.put_bytes bytes) ∧
      verbatim_bytes w.emitted = mem_bytes mem from_ n := by
  have hK : pull_count min_bytes ≤ min_bytes / 4 + 1 := by unfold pull_count; omega
  refine ⟨_, _, relocate_emitted mem rl storage from_ min_bytes to_ fuel hmin (by omega), ?_⟩
  have key : ∀ j, j < pull_count min_bytes →
      emission_for mem
        (decode_insn mem
          (read_steps mem j
            (gum_arm64_relocator_init rl storage from_ (gum_arm64_writer_init to_))).input_cur
          (read_steps mem j
            (gum_arm64_relocator_init rl storage from_ (gum_arm64_writer_init to_))).input_pc)
        = Emission.put_bytes (mem_bytes mem (from_ + 4 * j) 4) := by
    intro j hj
    have hc := (read_steps_cursor mem j
      (gum_arm64_relocator_init rl storage from_ (gum_arm64_writer_init to_))).1
    have hc' : (read_steps mem j
        (gum_arm64_relocator_init rl storage from_ (gum_arm64_writer_init to_))).input_cur
          % 2 ^ 64 = (from_ + 4 * j) % 2 ^ 64 := hc
    have hw := read_guint32_le_congr mem _ _ hc'
    obtain ⟨h1, h2⟩ := hunknown j (by omega)
    simp only [emission_for, decode_insn, hw, if_neg h1, if_neg h2]
    rw [mem_bytes_congr mem _ _ 4 hc']
  have hmap := List.map_congr_left (l := List.range (pull_count min_bytes))
    (fun j hj => key j (List.mem_range.mp hj))
  simp only [hmap]
  refine ⟨?_, verbatim_bytes_chunks mem from_ _⟩
  intro e he
  obtain ⟨j, _, rfl⟩ := List.mem_map.mp he
  exact ⟨_, rfl⟩

theorem C6_relocate_copies_witness :
    ∃ (n : Nat) (w : GumArm64Writer),
      gum_arm64_relocator_relocate 3 (word_at 0x1004 0xd503201f) blank_relocator
        (fun _ => blank_insn) 0x1004 6 0x2000 = .done (n, w) ∧
      (∀ e ∈ w.emitted, ∃ bytes, e = Emission.put_bytes bytes) ∧
      verbatim_bytes w.emitted = mem_bytes (word_at 0x1004 0xd503201f) 0x1004 n :=
  C6_relocate_copies (word_at 0x1004 0xd503201f) blank_relocator (fun _ => blank_insn)
    0x1004 6 0x2000 3 (by decide) (by decide) (by decide)

/-- C7 (as stated, refuted): with `min_bytes = 0` over an input of Unknown words
`relocate` returns 4, not the smallest multiple of 4 that is `>= 0`; with
`min_bytes = 2^32 - 1` the 32-bit byte count wraps to zero and `relocate`
aborts instead of returning. -/
theorem C7_counterexample :
    gum_arm64_relocator_relocate 2 (word_at 0x1004 0xd503201f) blank_relocator
        (fun _ => blank_insn) 0x1004 0 0x2000
      = .done (4, { base := 0x2000, emitted := [Emission.put_bytes [0x1f, 0x20, 0x03, 0xd5]] }) ∧
    ¬ smallest_multiple_of_4_ge 0 4 ∧
    gum_arm64_relocator_relocate (2 ^ 30) (word_at 0x1004 0xd503201f) blank_relocator
        (fun _ => blank_insn) 0x1004 (2 ^ 32 - 1) 0x2000 = .aborted := by
  refine ⟨by decide, fun h => absurd (h.2.2 0 rfl (Nat.le_refl 0)) (by decide), ?_⟩
  exact relocate_aborts_of_wrap _ _ _ _ _ _ _ (by norm_num) (Nat.le_refl _)

/-- C7 (amended): for every memory content and every `min_bytes` with
`1 <= min_bytes <= 2^32 - 4`, `relocate` returns the smallest multiple of 4 that
is `>= min_bytes`. -/
theorem C7_relocate_length (mem : Memory) (rl : GumArm64Relocator)
    (storage : Nat → GumArm64Instruction) (from_ min_bytes to_ fuel : Nat)
    (hpos : 1 ≤ min_bytes) (hmin : min_bytes ≤ 2 ^ 32 - 4)
    (hfuel : min_bytes / 4 + 2 ≤ fuel) :
    ∃ (n : Nat) (w : GumArm64Writer),
      gum_arm64_relocator_relocate fuel mem rl storage from_ min_bytes to_ = .done (n, w) ∧
      smallest_multiple_of_4_ge min_bytes n := by
  refine ⟨_, _, relocate_eq mem rl storage from_ min_bytes to_ fuel hmin
    (by unfold pull_count; omega), ?_⟩
  unfold smallest_multiple_of_4_ge pull_count
  refine ⟨by omega, by omega, ?_⟩
  intro m hm1 hm2
  omega

theorem C7_relocate_length_witness :
    ∃ (n : Nat) (w : GumArm64Writer),
      gum_arm64_relocator_relocate 3 (word_at 0x1004 0xd503201f) blank_relocator
        (fun _ => blank_insn) 0x1004 6 0x2000 = .done (n, w) ∧
      smallest_multiple_of_4_ge 6 n ∧ n = 8 := by
  obtain ⟨n, w, h1, h2⟩ := C7_relocate_length (word_at 0x1004 0xd503201f) blank_relocator
    (fun _ => blank_insn) 0x1004 6 0x2000 3 (by decide) (by decide) (by decide)
  refine ⟨n, w, h1, h2, ?_⟩
  obtain ⟨h3, h4, h5⟩ := h2
  have := h5 8 (by decide) (by decide)
  omega

/-- C9: whenever `can_relocate` returns true, its pull loop stopped at some
cumulative byte count `n`, and `relocate` with the same address and `min_bytes`
(given enough iterations) returns normally with exactly that `n`. -/
theorem C9_relocate_after_probe (mem : Memory) (readable : Nat → Bool)
    (sp stack_low : Nat) (rl rl' : GumArm64Relocator)
    (storage storage' : Nat → GumArm64Instruction)
    (address min_bytes to_ fuel fuel' : Nat)
    (hprobe : gum_arm64_relocator_can_relocate fuel mem readable sp stack_low rl storage
      address min_bytes = .ran (.done true))
    (hfuel : min_bytes / 4 + 2 ≤ fuel') :
    ∃ (rl1 : GumArm64Relocator) (n : Nat) (w : GumArm64Writer),
      gum_arm64_relocator_can_relocate_loop mem readable min_bytes fuel
        (gum_arm64_relocator_init rl storage address
          (gum_arm64_writer_init (sp - (3 * min_bytes) % 2 ^ 32)))
        = .ran (.done (some (rl1, n))) ∧
      gum_arm64_relocator_relocate fuel' mem rl' storage' address min_bytes to_
        = .done (n, w) := by
  unfold gum_arm64_relocator_can_relocate g_alloca at hprobe
  by_cases hstack : stack_low + (3 * min_bytes) % 2 ^ 32 ≤ sp
  · rw [if_pos hstack] at hprobe
    simp only [] at hprobe
    rcases can_relocate_loop_cases mem readable min_bytes fuel 0
      (gum_arm64_relocator_init rl storage address
        (gum_arm64_writer_init (sp - (3 * min_bytes) % 2 ^ 32)))
      (pullInv_init _ _ _ _) (by norm_num) (by intro j h1 h2; omega)
      with h | h | h | ⟨rl1, h, hmin⟩
    · rw [h] at hprobe; cases hprobe
    · rw [h] at hprobe; cases hprobe
    · rw [h] at hprobe; cases hprobe
    · exact ⟨rl1, _, _, h, relocate_eq mem rl' storage' address min_bytes to_ fuel' hmin
        (by unfold pull_count; omega)⟩
  · rw [if_neg hstack] at hprobe
    cases hprobe

theorem C9_relocate_after_probe_witness :
    ∃ (rl1 : GumArm64Relocator) (n : Nat) (w : GumArm64Writer),
      gum_arm64_relocator_can_relocate_loop (word_at 0x1004 0xd503201f)
        (readable_range 0x1004 0x100c) 6 2
        (gum_arm64_relocator_init blank_relocator (fun _ => blank_insn) 0x1004
          (gum_arm64_writer_init (0x7fff0000 - (3 * 6) % 2 ^ 32)))
        = .ran (.done (some (rl1, n))) ∧
      gum_arm64_relocator_relocate 3 (word_at 0x1004 0xd503201f) blank_relocator
        (fun _ => blank_insn) 0x1004 6 0x2000 = .done (n, w) :=
  C9_relocate_after_probe (word_at 0x1004 0xd503201f) (readable_range 0x1004 0x100c)
    0x7fff0000 0x7f7f0000 blank_relocator blank_relocator
    (fun _ => blank_insn) (fun _ => blank_insn) 0x1004 6 0x2000 2 3
    (by decide) (by decide)

/-- C10: in every state reachable from `init` or `reset` by calls of `read_one`,
`peek_next_write_insn`, `skip_one`, `write_one` and `write_all` that return,
the write counter is at most the read counter. -/
theorem C10_outpos_le_inpos (self : GumArm64Relocator) (h : Reachable self) :
    self.outpos ≤ self.inpos :=
  (windowInv_of_reachable self h).1

theorem C10_outpos_le_inpos_witness :
    (write_step (word_at 0x1004 0xd503201f)
      (read_step (word_at 0x1004 0xd503201f)
        (gum_arm64_relocator_reset blank_relocator 0x1004
          (gum_arm64_writer_init 0x2000)))).outpos ≤
    (write_step (word_at 0x1004 0xd503201f)
      (read_step (word_at 0x1004 0xd503201f)
        (gum_arm64_relocator_reset blank_relocator 0x1004
          (gum_arm64_writer_init 0x2000)))).inpos :=
  C10_outpos_le_inpos _
    (Reachable.write_one (word_at 0x1004 0xd503201f) _ _ true
      (Reachable.read_one (word_at 0x1004 0xd503201f) _ _ none _ _
        (Reachable.reset blank_relocator 0x1004 (gum_arm64_writer_init 0x2000))
        (read_one_eq _ _ none (by decide) (by decide)))
      (write_one_eq _ _ (by decide) (by decide)))

/-- C11: `write_all` on a state with `n = inpos - outpos` pending records runs
exactly `n` successful `write_one` calls (the loop counter ends at `n`, each
call appending one request), leaves `outpos = inpos` with `inpos` unchanged,
and then aborts in the assertion when `n = 0` and returns normally when
`n >= 1`. -/
theorem C11_write_all (mem : Memory) (self : GumArm64Relocator) (n fuel : Nat)
    (hn : self.outpos + n = self.inpos) (hin : self.inpos < 2 ^ 32) (hfuel : n + 1 ≤ fuel) :
    ∃ self1 : GumArm64Relocator,
      gum_arm64_relocator_write_all_loop mem fuel self 0 = .done (self1, n) ∧
      self1.outpos = self.inpos ∧ self1.inpos = self.inpos ∧
      self1.output.emitted.length = self.output.emitted.length + n ∧
      gum_arm64_relocator_write_all fuel mem self =
        (if n = 0 then .aborted else .done self1) := by
  have hloop := write_all_loop_eq mem n fuel 0 self hn hin (by omega) hfuel
  rw [Nat.zero_add] at hloop
  obtain ⟨a, b, c⟩ := write_steps_counters mem n self (by omega)
  refine ⟨write_steps mem n self, hloop, by omega, b, c, ?_⟩
  unfold gum_arm64_relocator_write_all
  rw [hloop]
  by_cases h0 : n = 0
  · simp [h0]
  · simp only [h0, if_false]
    rw [if_pos (by omega)]

theorem C11_write_all_witness :
    (∃ self1 : GumArm64Relocator,
      gum_arm64_relocator_write_all_loop (word_at 0x1004 0xd503201f) 2
        (one_pending GUM_ARM64_UNKNOWN) 0 = .done (self1, 1) ∧
      self1.outpos = 1 ∧ self1.inpos = 1 ∧
      self1.output.emitted.length = 1 ∧
      gum_arm64_relocator_write_all 2 (word_at 0x1004 0xd503201f)
        (one_pending GUM_ARM64_UNKNOWN) = .done self1) ∧
    gum_arm64_relocator_write_all 1 (word_at 0x1004 0xd503201f)
      (gum_arm64_relocator_reset blank_relocator 0x1004 (gum_arm64_writer_init 0x2000))
      = .aborted :=
  ⟨C11_write_all (word_at 0x1004 0xd503201f) (one_pending GUM_ARM64_UNKNOWN) 1 2
      (by decide) (by decide) (by decide),
   by
    obtain ⟨s, _, _, _, _, h⟩ := C11_write_all (word_at 0x1004 0xd503201f)
      (gum_arm64_relocator_reset blank_relocator 0x1004 (gum_arm64_writer_init 0x2000)) 0 1
      (by decide) (by decide) (by decide)
    exact h⟩

/-- C12: in a state with `outpos <= inpos`, `write_one` returns; it returns
`FALSE` exactly when the window is empty and then the whole state, the backend
output included, is unchanged; otherwise it returns `TRUE` with `outpos`
advanced by one and `inpos`, the input cursor and the running program counter
unchanged, whatever the tag of the record. -/
theorem C12_write_one (mem : Memory) (self : GumArm64Relocator)
    (hle : self.outpos ≤ self.inpos) (hin : self.inpos < 2 ^ 32) :
    ∃ (self1 : GumArm64Relocator) (b : Bool),
      gum_arm64_relocator_write_one mem self = .done (self1, b) ∧
      (b = false ↔ self.outpos = self.inpos) ∧
      (b = false → self1 = self) ∧
      (b = true → self1.outpos = self.outpos + 1 ∧ self1.inpos = self.inpos ∧
        self1.input_cur = self.input_cur ∧ self1.input_pc = self.input_pc) := by
  by_cases he : self.outpos = self.inpos
  · refine ⟨self, false, write_one_empty mem self he, by simp [he], fun _ => rfl, ?_⟩
    intro h; cases h
  · refine ⟨write_step mem self, true, write_one_eq mem self he (by omega), by simp [he],
      ?_, ?_⟩
    · intro h; cases h
    · intro _
      refine ⟨?_, rfl, rfl, rfl⟩
      simp only [write_step]; omega

theorem C12_write_one_witness :
    ∃ (self1 : GumArm64Relocator) (b : Bool),
      gum_arm64_relocator_write_one (word_at 0x1004 0x10ffffe3) (one_pending GUM_ARM64_ADR)
        = .done (self1, b) ∧
      (b = false ↔ (one_pending GUM_ARM64_ADR).outpos = (one_pending GUM_ARM64_ADR).inpos) ∧
      (b = false → self1 = one_pending GUM_ARM64_ADR) ∧
      (b = true → self1.outpos = (one_pending GUM_ARM64_ADR).outpos + 1 ∧
        self1.inpos = (one_pending GUM_ARM64_ADR).inpos ∧
        self1.input_cur = (one_pending GUM_ARM64_ADR).input_cur ∧
        self1.input_pc = (one_pending GUM_ARM64_ADR).input_pc) :=
  C12_write_one (word_at 0x1004 0x10ffffe3) (one_pending GUM_ARM64_ADR) (by decide) (by decide)

/-- C13: in a state with `outpos <= inpos`, `skip_one` aborts exactly when the
window is empty; with a pending record it returns the same state with `outpos`
advanced by one: nothing is sent to the backend, and `inpos`, the input cursor,
the running program counter, the window and both flags are unchanged. -/
theorem C13_skip_one (self : GumArm64Relocator)
    (hle : self.outpos ≤ self.inpos) (hin : self.inpos < 2 ^ 32) :
    (gum_arm64_relocator_skip_one self = .aborted ↔ self.outpos = self.inpos) ∧
    (self.outpos ≠ self.inpos →
      gum_arm64_relocator_skip_one self = .done { self with outpos := self.outpos + 1 }) := by
  unfold gum_arm64_relocator_skip_one gum_arm64_relocator_peek_next_write_insn
    gum_arm64_relocator_increment_outpos
  by_cases he : self.outpos = self.inpos
  · simp [he]
  · have h1 : (self.outpos + 1) % 2 ^ 32 = self.outpos + 1 := Nat.mod_eq_of_lt (by omega)
    have h2 : self.outpos + 1 ≤ self.inpos := by omega
    simp only [he, if_false, h1, h2, if_true]
    simp

theorem C13_skip_one_witness :
    (gum_arm64_relocator_skip_one (one_pending GUM_ARM64_ADR) = .aborted ↔
      (one_pending GUM_ARM64_ADR).outpos = (one_pending GUM_ARM64_ADR).inpos) ∧
    ((one_pending GUM_ARM64_ADR).outpos ≠ (one_pending GUM_ARM64_ADR).inpos →
      gum_arm64_relocator_skip_one (one_pending GUM_ARM64_ADR) =
        .done { one_pending GUM_ARM64_ADR with
          outpos := (one_pending GUM_ARM64_ADR).outpos + 1 }) :=
  C13_skip_one (one_pending GUM_ARM64_ADR) (by decide) (by decide)

/-- C14: in every reachable state `peek_next_write_insn` (a pure query of the
state) returns none exactly when `outpos = inpos`; otherwise, when at most 100
records are pending, it returns the slot holding the record of read number
`outpos + 1` since the last reset: address and pc `input_start + 4 * outpos`,
length 4. -/
theorem C14_peek_next_write_insn (self : GumArm64Relocator) (hreach : Reachable self) :
    (gum_arm64_relocator_peek_next_write_insn self = none ↔ self.outpos = self.inpos) ∧
    (self.outpos ≠ self.inpos → self.inpos - self.outpos ≤ 100 →
      self.input_start + 4 * self.outpos < 2 ^ 64 →
      ∃ p, gum_arm64_relocator_peek_next_write_insn self = some p ∧
        (self.input_insns p).address = self.input_start + 4 * self.outpos ∧
        (self.input_insns p).pc = self.input_start + 4 * self.outpos ∧
        (self.input_insns p).length = 4) := by
  obtain ⟨h1, h2, h3, h4, h5⟩ := recordsInv_of_reachable self hreach
  unfold gum_arm64_relocator_peek_next_write_insn gum_arm64_relocator_outpos
    GUM_MAX_INPUT_INSN_COUNT
  constructor
  · by_cases he : self.outpos = self.inpos
    · simp [he]
    · simp [he]
  · intro hne hpend hA
    rw [if_neg hne]
    obtain ⟨a, b, c⟩ := h5 self.outpos (by omega) (by omega)
    rw [advance_eq _ _ hA] at a b
    exact ⟨_, rfl, a, b, c⟩

theorem C14_peek_next_write_insn_witness :
    ∃ p, gum_arm64_relocator_peek_next_write_insn
        (read_step (word_at 0x1004 0xd503201f)
          (gum_arm64_relocator_reset blank_relocator 0x1004 (gum_arm64_writer_init 0x2000)))
        = some p ∧
      ((read_step (word_at 0x1004 0xd503201f)
          (gum_arm64_relocator_reset blank_relocator 0x1004
            (gum_arm64_writer_init 0x2000))).input_insns p).address = 0x1004 :=
  let ⟨p, h1, h2, _⟩ := (C14_peek_next_write_insn
    (read_step (word_at 0x1004 0xd503201f)
      (gum_arm64_relocator_reset blank_relocator 0x1004 (gum_arm64_writer_init 0x2000)))
    (Reachable.read_one (word_at 0x1004 0xd503201f) _ _ none _ _
      (Reachable.reset blank_relocator 0x1004 (gum_arm64_writer_init 0x2000))
      (read_one_eq _ _ none (by decide) (by decide)))).2 (by decide) (by decide) (by decide)
  ⟨p, h1, h2⟩

/-- C15: after `init`/`reset` on input address `A`, the `n`-th consecutive
`read_one` call (`n >= 1`, `4n < 2^32`, the `n` instructions inside the 64-bit
address space) returns `4n`, stores in slot `(n-1) mod 100` a record with
address and pc `A + 4(n-1)` and length 4, sets the read counter to `n`, moves
the input cursor and the running pc to `A + 4n`, and leaves `outpos` as it was. -/
theorem C15_nth_read_one (mem : Memory) (relocator : GumArm64Relocator) (A : Nat)
    (output : GumArm64Writer) (instruction : Option (Option Nat)) (n : Nat)
    (hn : 1 ≤ n) (h32 : 4 * n < 2 ^ 32) (hA : A + 4 * n < 2 ^ 64) :
    ∃ (s : GumArm64Relocator) (rets : List Nat) (s1 : GumArm64Relocator),
      read_one_times mem (n - 1) (gum_arm64_relocator_reset relocator A output)
        = .done (s, rets) ∧
      gum_arm64_relocator_read_one mem s instruction =
        .done (s1, 4 * n, instruction.map (fun _ => some ((n - 1) % 100))) ∧
      (s1.input_insns ((n - 1) % 100)).address = A + 4 * (n - 1) ∧
      (s1.input_insns ((n - 1) % 100)).pc = A + 4 * (n - 1) ∧
      (s1.input_insns ((n - 1) % 100)).length = 4 ∧
      s1.inpos = n ∧ s1.input_cur = A + 4 * n ∧ s1.input_pc = A + 4 * n ∧
      s1.outpos = s.outpos := by
  obtain ⟨m, rfl⟩ : ∃ m, n = m + 1 := ⟨n - 1, by omega⟩
  simp only [Nat.add_sub_cancel]
  have hinv0 := pullInv_reset relocator A output
  have hinv := pullInv_read_steps mem m 0 _ hinv0 (by omega)
  rw [Nat.zero_add] at hinv
  obtain ⟨hc, hp⟩ := read_steps_reset_cursor mem relocator A output m (by omega)
  obtain ⟨e1, e2, e3, e4⟩ := hinv
  refine ⟨_, _, read_step mem (read_steps mem m (gum_arm64_relocator_reset relocator A output)),
    read_one_times_eq mem m 0 _ hinv0 (by omega), ?_, ?_, ?_, ?_, ?_, ?_, ?_, ?_⟩
  · rw [read_one_eq mem _ instruction e1 (by omega), read_count_read_step, e4]
    simp only [gum_arm64_relocator_inpos, GUM_MAX_INPUT_INSN_COUNT, e3]
    rw [show (4 * m + 4) % 2 ^ 32 = 4 * (m + 1) by omega]
  · simp [read_step, gum_arm64_relocator_inpos, GUM_MAX_INPUT_INSN_COUNT, e3, decode_insn, hc]
  · simp [read_step, gum_arm64_relocator_inpos, GUM_MAX_INPUT_INSN_COUNT, e3, decode_insn, hp]
  · simp [read_step, gum_arm64_relocator_inpos, GUM_MAX_INPUT_INSN_COUNT, e3, decode_insn]
  · simp only [read_step, e3]; omega
  · simp only [read_step, hc]; omega
  · simp only [read_step, hp]; omega
  · rfl

theorem C15_nth_read_one_witness :
    ∃ (s : GumArm64Relocator) (rets : List Nat) (s1 : GumArm64Relocator),
      read_one_times (word_at 0x1008 0x10ffffe3) 2
        (gum_arm64_relocator_reset blank_relocator 0x1004 (gum_arm64_writer_init 0x2000))
        = .done (s, rets) ∧
      gum_arm64_relocator_read_one (word_at 0x1008 0x10ffffe3) s (some none) =
        .done (s1, 12, some (some 2)) ∧
      (s1.input_insns 2).address = 0x100c ∧
      (s1.input_insns 2).pc = 0x100c ∧
      (s1.input_insns 2).length = 4 ∧
      s1.inpos = 3 ∧ s1.input_cur = 0x1010 ∧ s1.input_pc = 0x1010 ∧
      s1.outpos = s.outpos :=
  C15_nth_read_one (word_at 0x1008 0x10ffffe3) blank_relocator 0x1004
    (gum_arm64_writer_init 0x2000) (some none) 3 (by decide) (by decide) (by decide)

/-- C16: with the end-of-instructions flag set, `read_one` returns 0 and the
relocator state (counters, input cursor, running program counter, window) and
the caller's out-parameter are returned unchanged. -/
theorem C16_read_one_eoi (mem : Memory) (self : GumArm64Relocator)
    (instruction : Option (Option Nat)) (heoi : self.eoi = true) :
    gum_arm64_relocator_read_one mem self instruction = .done (self, 0, instruction) := by
  unfold gum_arm64_relocator_read_one
  simp only [heoi, if_true]

theorem C16_read_one_eoi_witness :
    eoi_relocator.eoi = true ∧
    gum_arm64_relocator_read_one (word_at 0x1008 0x10ffffe3) eoi_relocator (some (some 7))
      = .done (eoi_relocator, 0, some (some 7)) :=
  ⟨rfl, C16_read_one_eoi (word_at 0x1008 0x10ffffe3) eoi_relocator (some (some 7)) rfl⟩

/-- C17: for every register `R < 32` and every 64-bit program counter `P`, when
the word at the input cursor is `0x10000000 | R` (ADR) or `0x90000000 | R`
(ADRP) and the running pc is `P`, reading it and then writing it sends the
backend exactly one request, loading the value `P` into register `R`, and no
bytes. -/
theorem C17_zero_displacement (mem : Memory) (self : GumArm64Relocator) (R P : Nat)
    (hR : R < 32) (hP : P < 2 ^ 64) (heoi : self.eoi = false)
    (hempty : self.outpos = self.inpos) (hin : self.inpos + 1 < 2 ^ 32)
    (hpc : self.input_pc = P)
    (hword : read_guint32_le mem self.input_cur = 0x10000000 ||| R ∨
      read_guint32_le mem self.input_cur = 0x90000000 ||| R) :
    ∃ (s1 : GumArm64Relocator) (n : Nat) (out : Option (Option Nat))
      (s2 : GumArm64Relocator),
      gum_arm64_relocator_read_one mem self none = .done (s1, n, out) ∧
      gum_arm64_relocator_write_one mem s1 = .done (s2, true) ∧
      s2.output.emitted = self.output.emitted ++ [Emission.put_ldr_reg_address R P] := by
  have hin' : (self.inpos + 1) % 2 ^ 32 = self.inpos + 1 := Nat.mod_eq_of_lt hin
  refine ⟨read_step mem self, _, _, write_step mem (read_step mem self),
    read_one_eq mem self none heoi (by omega), write_one_eq mem _ ?_ ?_, ?_⟩
  · simp only [read_step, hin']; omega
  · simp only [read_step, hin']; omega
  · have hslot : gum_arm64_relocator_outpos (read_step mem self) =
        gum_arm64_relocator_inpos self := by
      simp only [gum_arm64_relocator_outpos, gum_arm64_relocator_inpos, read_step, hempty]
    simp only [write_step, hslot]
    simp only [read_step, if_true, decode_insn, emission_for, hpc]
    rcases hword with hw | hw
    · obtain ⟨a, b, c⟩ := zero_disp_adr_fields R hR
      simp only [hw, a, b, c, if_true, Nat.add_zero, Nat.mod_eq_of_lt hP]
    · obtain ⟨a, b, c⟩ := zero_disp_adrp_fields R hR
      have hne : ¬ (0x90000000 : Nat) = 0x10000000 := by decide
      simp only [hw, a, b, c, if_neg hne, if_true, Nat.add_zero, Nat.mod_eq_of_lt hP]

theorem C17_zero_displacement_witness :
    ∃ (s1 : GumArm64Relocator) (n : Nat) (out : Option (Option Nat))
      (s2 : GumArm64Relocator),
      gum_arm64_relocator_read_one (word_at 0x1004 0x90000005)
        (gum_arm64_relocator_reset blank_relocator 0x1004 (gum_arm64_writer_init 0x2000)) none
        = .done (s1, n, out) ∧
      gum_arm64_relocator_write_one (word_at 0x1004 0x90000005) s1 = .done (s2, true) ∧
      s2.output.emitted = [Emission.put_ldr_reg_address 5 0x1004] :=
  C17_zero_displacement (word_at 0x1004 0x90000005)
    (gum_arm64_relocator_reset blank_relocator 0x1004 (gum_arm64_writer_init 0x2000))
    5 0x1004 (by decide) (by decide) (by decide) (by decide) (by decide) (by decide)
    (Or.inr (by decide))

/-- C18: for every memory content and every `min_bytes` with
`1 <= min_bytes <= 400`, `relocate` returns `4k` for `k = ceil(min_bytes / 4)`
and the backend has received exactly the per-instruction emissions of the
instructions at `from + 0, from + 4, ..., from + 4(k-1)`, in that order, each
once, and nothing else. -/
theorem C18_relocate_output (mem : Memory) (rl : GumArm64Relocator)
    (storage : Nat → GumArm64Instruction) (from_ min_bytes to_ fuel : Nat)
    (hpos : 1 ≤ min_bytes) (hmin : min_bytes ≤ 400)
    (hfuel : (min_bytes + 3) / 4 + 1 ≤ fuel) :
    gum_arm64_relocator_relocate fuel mem rl storage from_ min_bytes to_ =
      .done (4 * ((min_bytes + 3) / 4),
        { base := to_
          emitted := (List.range ((min_bytes + 3) / 4)).map
            (fun j => expected_emission mem (from_ + 4 * j)) }) := by
  have hpc : pull_count min_bytes = (min_bytes + 3) / 4 := by unfold pull_count; omega
  rw [relocate_emitted mem rl storage from_ min_bytes to_ fuel hmin (by omega), hpc]
  refine congrArg _ (congrArg _ (congrArg _ ?_))
  apply List.map_congr_left
  intro j _
  obtain ⟨hc, hp⟩ := read_steps_cursor mem j
    (gum_arm64_relocator_init rl storage from_ (gum_arm64_writer_init to_))
  exact emission_for_decode mem _ _ _ hc hp

theorem C18_relocate_output_witness :
    gum_arm64_relocator_relocate 3 (word_at 0x1008 0x10ffffe3) blank_relocator
        (fun _ => blank_insn) 0x1004 6 0x2000 =
      .done (8, { base := 0x2000,
                  emitted := [Emission.put_bytes [0, 0, 0, 0],
                              Emission.put_ldr_reg_address 3 0x1004] }) := by
  have h := C18_relocate_output (word_at 0x1008 0x10ffffe3) blank_relocator
    (fun _ => blank_insn) 0x1004 6 0x2000 3 (by decide) (by decide) (by decide)
  rw [h]
  decide

/-- C19: 101 consecutive `read_one` calls from a reset state all return
normally with the nonzero counts `4, 8, ..., 404`, and afterwards
`peek_next_write_insn` returns slot 0, which now holds the record of the 101st
instruction (address `input_start + 400`), not that of the first. -/
theorem C19_window_overrun (mem : Memory) (relocator : GumArm64Relocator) (A : Nat)
    (output : GumArm64Writer) (hA : A + 404 ≤ 2 ^ 64) :
    ∃ s : GumArm64Relocator,
      read_one_times mem 101 (gum_arm64_relocator_reset relocator A output) =
        .done (s, (List.range 101).map (fun i => 4 * (i + 1))) ∧
      gum_arm64_relocator_peek_next_write_insn s = some 0 ∧
      (s.input_insns 0).address = A + 400 ∧
      (s.input_insns 0).address ≠ A := by
  have hinv0 := pullInv_reset relocator A output
  have hinv := pullInv_read_steps mem 101 0 _ hinv0 (by norm_num)
  obtain ⟨e1, e2, e3, e4⟩ := hinv
  have hinv100 := pullInv_read_steps mem 100 0 _ hinv0 (by norm_num)
  obtain ⟨f1, f2, f3, f4⟩ := hinv100
  obtain ⟨hc, hp⟩ := read_steps_reset_cursor mem relocator A output 100 (by omega)
  have hsplit : read_steps mem 101 (gum_arm64_relocator_reset relocator A output) =
      read_step mem (read_steps mem 100 (gum_arm64_relocator_reset relocator A output)) :=
    read_steps_succ_last mem 100 _
  have haddr : ((read_steps mem 101
      (gum_arm64_relocator_reset relocator A output)).input_insns 0).address = A + 400 := by
    rw [hsplit]
    simp [read_step, gum_arm64_relocator_inpos, GUM_MAX_INPUT_INSN_COUNT, f3, decode_insn, hc]
  refine ⟨_, ?_, ?_, haddr, by rw [haddr]; omega⟩
  · have := read_one_times_eq mem 101 0 _ hinv0 (by norm_num)
    simp only [Nat.zero_add] at this
    exact this
  · unfold gum_arm64_relocator_peek_next_write_insn gum_arm64_relocator_outpos
    rw [e2, e3]
    rfl

theorem C19_window_overrun_witness :
    ∃ s : GumArm64Relocator,
      read_one_times (word_at 0x1590 1) 101
        (gum_arm64_relocator_reset blank_relocator 0x1400 (gum_arm64_writer_init 0x2000)) =
        .done (s, (List.range 101).map (fun i => 4 * (i + 1))) ∧
      gum_arm64_relocator_peek_next_write_insn s = some 0 ∧
      (s.input_insns 0).address = 0x1400 + 400 ∧
      (s.input_insns 0).address ≠ 0x1400 :=
  C19_window_overrun (word_at 0x1590 1) blank_relocator 0x1400 (gum_arm64_writer_init 0x2000)
    (by decide)

/-- C20: a relocator rebound with `reset` after any history and a freshly
initialised one, bound to the same input and output, yield the same
observations (return values, records behind returned pointers, emitted output,
aborts) for every sequence of `read_one`, `peek_next_write_insn`, `skip_one`,
`write_one` and `write_all` calls; stale window records are never observed. -/
theorem C20_reset_like_init (fuel : Nat) (mem : Memory) (calls : List Call)
    (relocator rl : GumArm64Relocator) (storage : Nat → GumArm64Instruction)
    (input_code : Nat) (output : GumArm64Writer) :
    run_calls fuel mem calls (gum_arm64_relocator_reset relocator input_code output) =
      run_calls fuel mem calls (gum_arm64_relocator_init rl storage input_code output) := by
  have h : Agree (gum_arm64_relocator_reset relocator input_code output) storage := by
    refine ⟨Nat.le_refl _, ?_⟩
    intro i hi
    simp [gum_arm64_relocator_reset] at hi
  exact run_calls_with_window fuel mem calls _ storage h

/-- C21: from every state with `outpos <= inpos < 2^32 - 1`, no fatal assertion
is reached by `read_one` or `write_one`: the check of `increment_inpos` passes
and `read_one` returns; when a record is pending the check of
`increment_outpos` passes, and `write_one` returns whatever the tag of the
record; `rewrite_adr` returns for every record tagged ADR or ADRP, the only
tags it is dispatched for. -/
theorem C21_no_fatal_assertion (mem : Memory) (self : GumArm64Relocator)
    (instruction : Option (Option Nat))
    (hle : self.outpos ≤ self.inpos) (hin : self.inpos < 2 ^ 32 - 1) :
    (∃ self1, gum_arm64_relocator_increment_inpos self = .done self1) ∧
    (∃ (self1 : GumArm64Relocator) (n : Nat) (out : Option (Option Nat)),
      gum_arm64_relocator_read_one mem self instruction = .done (self1, n, out)) ∧
    (self.outpos ≠ self.inpos →
      ∃ self1, gum_arm64_relocator_increment_outpos self = .done self1) ∧
    (∃ (self1 : GumArm64Relocator) (b : Bool),
      gum_arm64_relocator_write_one mem self = .done (self1, b)) ∧
    (∀ ctx : GumCodeGenCtx,
      ctx.insn.mnemonic = GUM_ARM64_ADR ∨ ctx.insn.mnemonic = GUM_ARM64_ADRP →
      ∃ w : GumArm64Writer, gum_arm64_relocator_rewrite_adr self ctx = .done (true, w)) := by
  have h1 : (self.inpos + 1) % 2 ^ 32 = self.inpos + 1 := Nat.mod_eq_of_lt (by omega)
  refine ⟨?_, ?_, ?_, ?_, fun ctx h => rewrite_adr_returns self ctx h⟩
  · unfold gum_arm64_relocator_increment_inpos
    simp only []
    rw [if_pos (by rw [h1]; omega)]
    exact ⟨_, rfl⟩
  · cases heoi : self.eoi
    · exact ⟨_, _, _, read_one_eq mem self instruction heoi (by omega)⟩
    · exact ⟨_, _, _, read_one_eoi mem self instruction heoi⟩
  · intro hne
    unfold gum_arm64_relocator_increment_outpos
    simp only []
    rw [if_pos (by omega)]
    exact ⟨_, rfl⟩
  · by_cases he : self.outpos = self.inpos
    · exact ⟨_, _, write_one_empty mem self he⟩
    · exact ⟨_, _, write_one_eq mem self he (by omega)⟩

theorem C21_no_fatal_assertion_witness :
    (∃ (self1 : GumArm64Relocator) (n : Nat) (out : Option (Option Nat)),
      gum_arm64_relocator_read_one (word_at 0x1004 0x90000005) (one_pending GUM_ARM64_ADRP)
        none = .done (self1, n, out)) ∧
    (∃ (self1 : GumArm64Relocator) (b : Bool),
      gum_arm64_relocator_write_one (word_at 0x1004 0x90000005) (one_pending GUM_ARM64_ADRP)
        = .done (self1, b)) :=
  let h := C21_no_fatal_assertion (word_at 0x1004 0x90000005) (one_pending GUM_ARM64_ADRP)
    none (by decide) (by decide)
  ⟨h.2.1, h.2.2.2.1⟩

end Gum
